import Mathlib

/-!
# tide: a shallow embedding of the editor core of `src/main.c`

The global `editorConfig` becomes an explicit `Editor` value that every
operation takes and returns.  The pair `(textRows, totalRows)` of the C
struct, a heap array of row pointers together with its element count, is
represented by one Lean list of rows; `totalRows` is its length.  A row is a
NUL-terminated C string and is represented by the bytes in front of its
terminator.  C `int` values are mathematical integers (the values the
program handles are assumed to stay inside the `int` range), except in the
scroll adjustment of `moveCursor`, whose sums of an offset and a terminal
size are reduced to 32 bits as the machine does (`wrapInt`).

An operation returns `none` when the C code would touch memory outside the
object it indexes: a row index outside `[0, totalRows)`, or a column that
lies outside the string it is used on.
-/

namespace Tide

/-- The bytes of a C string in front of its terminating NUL. -/
abbrev Row := List Int

/-- The fields of `struct textEditorConfig` that the editing operations read
or write (`saveFilename` and `originalTermios` are left out). -/
structure Editor where
  cursorX : Int
  cursorY : Int
  rowOffset : Int
  colOffset : Int
  terminalRows : Int
  terminalCols : Int
  textRows : List Row
deriving DecidableEq, Repr

/-- The field `totalRows`: the number of rows held by `textRows`. -/
def Editor.totalRows (E : Editor) : Int := E.textRows.length

def BACKSPACE : Int := 127
def ENTER : Int := 13
def ARROW_LEFT : Int := 1000
def ARROW_RIGHT : Int := 1001
def ARROW_UP : Int := 1002
def ARROW_DOWN : Int := 1003

/-- The macro `CTRL_KEY(k)`, `k & 0x1f`. -/
def CTRL_KEY (k : Nat) : Int := ((k &&& 0x1f : Nat) : Int)

/-- The C library's `strlen`. -/
def strlen (r : Row) : Int := r.length

/-- The read `textRows[i]`; `none` when `i` is outside `[0, totalRows)`. -/
def rowAt (E : Editor) (i : Int) : Option Row :=
  if i < 0 then none else E.textRows[i.toNat]?

/-- The comparison `x < n` of an `int x` with a `size_t n`: C converts `x` to
`size_t`, so a negative `x` becomes larger than any string length. -/
def intLtSize (x n : Int) : Bool := decide (0 ≤ x ∧ x < n)

/-- The comparison `x > n` of an `int x` with a `size_t n` (see `intLtSize`). -/
def intGtSize (x n : Int) : Bool := decide (x < 0 ∨ x > n)

/-- The `switch (key)` of `moveCursor` (lines 137-177). -/
def cursorStep (key : Int) (E : Editor) : Option Editor :=
  if key = ARROW_LEFT then
    if E.cursorX > 0 then
      some { E with cursorX := E.cursorX - 1 }
    else if E.cursorY > 0 then
      match rowAt E (E.cursorY - 1) with
      | none => none
      | some r => some { E with cursorY := E.cursorY - 1, cursorX := strlen r }
    else some E
  else if key = ARROW_RIGHT then
    match rowAt E E.cursorY with
    | none => none
    | some r =>
      if intLtSize E.cursorX (strlen r) then
        some { E with cursorX := E.cursorX + 1 }
      else if E.cursorY < E.totalRows - 1 then
        some { E with cursorY := E.cursorY + 1, cursorX := 0 }
      else some E
  else if key = ARROW_UP then
    if E.cursorY > 0 then
      match rowAt E (E.cursorY - 1) with
      | none => none
      | some r =>
        if intGtSize E.cursorX (strlen r) then
          some { E with cursorY := E.cursorY - 1, cursorX := strlen r }
        else some { E with cursorY := E.cursorY - 1 }
    else some E
  else if key = ARROW_DOWN then
    if E.cursorY < E.totalRows - 1 then
      match rowAt E (E.cursorY + 1) with
      | none => none
      | some r =>
        if intGtSize E.cursorX (strlen r) then
          some { E with cursorY := E.cursorY + 1, cursorX := strlen r }
        else some { E with cursorY := E.cursorY + 1 }
    else some E
  else some E

/-- The largest `int`, `2^31 - 1`. -/
def INT_MAX : Int := 2147483647

/-- The smallest `int`, `-2^31`. -/
def INT_MIN : Int := -2147483648

/-- The `int` that 32-bit two's complement arithmetic delivers for the exact
result `x`: `x` reduced modulo `2^32` into `[-2^31, 2^31)`. -/
def wrapInt (x : Int) : Int := (x + 2147483648) % 4294967296 - 2147483648

/-- The scroll adjustment that ends `moveCursor` (lines 179-194); the spec
calls it `reconcileViewport`.  Its additions and subtractions are `int`
operations and wrap around. -/
def reconcileViewport (E : Editor) : Editor :=
  let E1 : Editor :=
    if E.cursorY < E.rowOffset then
      { E with rowOffset := E.cursorY }
    else if E.cursorY ≥ wrapInt (E.rowOffset + E.terminalRows) then
      { E with rowOffset := wrapInt (wrapInt (E.cursorY - E.terminalRows) + 1) }
    else E
  if E1.cursorX < E1.colOffset then
    { E1 with colOffset := E1.cursorX }
  else if E1.cursorX ≥ wrapInt (E1.colOffset + E1.terminalCols) then
    { E1 with colOffset := wrapInt (wrapInt (E1.cursorX - E1.terminalCols) + 1) }
  else E1

/-- The function `moveCursor(key)`: the switch, then the scroll adjustment. -/
def moveCursor (key : Int) (E : Editor) : Option Editor :=
  (cursorStep key E).map reconcileViewport

/-- The function `insertRow(at, s, len)`; `s` stands for the `len` bytes at
`s` that the new row receives. -/
def insertRow (pos : Int) (s : Row) (E : Editor) : Editor :=
  if pos < 0 ∨ pos > E.totalRows then E
  else { E with textRows := E.textRows.take pos.toNat ++ s :: E.textRows.drop pos.toNat }

/-- The string left in a row buffer holding `row` once its tail from column
`cx` on has been moved one place right and the byte `b` stored at `cx`:
a NUL byte ends the string there. -/
def putByte (row : Row) (cx : Nat) (b : Int) : Row :=
  if b = 0 then row.take cx else row.take cx ++ b :: row.drop cx

/-- The function `insertChar(c)`; the byte stored by `row[cursorX] = c` is
`c` reduced modulo 256. -/
def insertChar (c : Int) (E : Editor) : Option Editor :=
  let E1 : Editor := if E.cursorY ≥ E.totalRows then insertRow E.totalRows [] E else E
  match rowAt E1 E1.cursorY with
  | none => none
  | some row =>
    if E1.cursorX < 0 ∨ E1.cursorX > strlen row then none
    else
      let E2 : Editor :=
        { E1 with
          textRows := E1.textRows.set E1.cursorY.toNat (putByte row E1.cursorX.toNat (c % 256))
          cursorX := E1.cursorX + 1 }
      if E2.cursorX ≥ E2.terminalCols then
        let E3 : Editor := { E2 with cursorX := 0 }
        if E3.cursorY < E3.totalRows - 1 then
          some { E3 with cursorY := E3.cursorY + 1 }
        else
          let E4 : Editor := insertRow E3.totalRows [] E3
          some { E4 with cursorY := E4.cursorY + 1 }
      else some E2

/-- The function `insertNewLine()`. -/
def insertNewLine (E : Editor) : Option Editor :=
  let split : Option Editor :=
    if E.cursorX = 0 then
      some (insertRow E.cursorY [] E)
    else
      match rowAt E E.cursorY with
      | none => none
      | some row =>
        if E.cursorX < 0 ∨ E.cursorX > strlen row then none
        else
          let E1 : Editor := insertRow (E.cursorY + 1) (row.drop E.cursorX.toNat) E
          some { E1 with
            textRows := E1.textRows.set E1.cursorY.toNat (row.take E1.cursorX.toNat) }
  match split with
  | none => none
  | some E2 => some { E2 with cursorY := E2.cursorY + 1, cursorX := 0 }

/-- The function `deleteChar()`.  With `cursorX = strlen(row) + 1` the
`memmove` has length zero and the string is unchanged; beyond that the
length computation wraps around. -/
def deleteChar (E : Editor) : Option Editor :=
  if E.cursorY ≥ E.totalRows ∨ (E.cursorX = 0 ∧ E.cursorY = 0) then some E
  else
    match rowAt E E.cursorY with
    | none => none
    | some row =>
      if E.cursorX > 0 then
        if E.cursorX > strlen row + 1 then none
        else
          some { E with
            textRows := E.textRows.set E.cursorY.toNat
              (row.take (E.cursorX - 1).toNat ++ row.drop E.cursorX.toNat)
            cursorX := E.cursorX - 1 }
      else
        match rowAt E (E.cursorY - 1) with
        | none => none
        | some prev =>
          some { E with
            textRows := (E.textRows.set (E.cursorY - 1).toNat (prev ++ row)).eraseIdx
              E.cursorY.toNat
            cursorY := E.cursorY - 1
            cursorX := strlen prev }

/-- The C library's `iscntrl` in the "C" locale (the program never sets
another one): the codes 0..31 and 127. -/
def iscntrl (c : Int) : Bool := decide ((0 ≤ c ∧ c < 32) ∨ c = 127)

/-- What one call of `processKeypress` leaves behind: the next editor state,
a process exit, or an access outside the indexed object. -/
inductive Outcome where
  | running (E : Editor)
  | exited
  | fault
deriving DecidableEq, Repr

/-- Turns the result of an editing operation into an `Outcome`. -/
def Outcome.ofOption : Option Editor → Outcome
  | some E => .running E
  | none => .fault

/-- The function `processKeypress()`, as a function of the key code `c` that
`readKeyInput()` returned.  The case labels are `CTRL_KEY('q')` (17),
`CTRL_KEY('s')` (19), the library macro `CTRL('c')`, which is `'c' & 037` (3),
`BACKSPACE`, `ENTER` and the four arrow codes.  `saveFile()` changes none of
the modelled fields. -/
def processKeypress (c : Int) (E : Editor) : Outcome :=
  if c = CTRL_KEY 113 then .exited
  else if c = CTRL_KEY 115 then .running E
  else if c = 3 then .exited
  else if c = BACKSPACE then Outcome.ofOption (deleteChar E)
  else if c = ENTER then Outcome.ofOption (insertNewLine E)
  else if c = ARROW_LEFT ∨ c = ARROW_RIGHT ∨ c = ARROW_UP ∨ c = ARROW_DOWN then
    Outcome.ofOption (moveCursor c E)
  else if ¬ iscntrl c then Outcome.ofOption (insertChar c E)
  else .running E

/-- The function `initializeEditor()`; `rows` and `cols` are what
`getTerminalSize` stored in `terminalRows` and `terminalCols`. -/
def initializeEditor (rows cols : Int) : Editor :=
  { cursorX := 0, cursorY := 0, rowOffset := 0, colOffset := 0,
    terminalRows := rows, terminalCols := cols, textRows := [] }

/-- The event loop of `main` on a finite list of key codes: one
`processKeypress` per key, stopping at an exit or a fault. -/
def runKeys : List Int → Editor → Outcome
  | [], E => .running E
  | k :: ks, E =>
    match processKeypress k E with
    | .running E1 => runKeys ks E1
    | .exited => .exited
    | .fault => .fault

/-- Successive calls `insertChar(c1)`, ..., `insertChar(cn)`. -/
def insertChars : List Int → Editor → Option Editor
  | [], E => some E
  | c :: cs, E =>
    match insertChar c E with
    | none => none
    | some E1 => insertChars cs E1

/-- Successive calls of `moveCursor`, one per key of the list. -/
def moveCursors : List Int → Editor → Option Editor
  | [], E => some E
  | k :: ks, E =>
    match moveCursor k E with
    | none => none
    | some E1 => moveCursors ks E1

/-- The length of row `i`, and 0 where the buffer has no row `i`. -/
def rowLen (E : Editor) (i : Int) : Int :=
  match rowAt E i with
  | some r => strlen r
  | none => 0

/-- Reference definition of the cursor after `moveCursor`, written from the
words of the specification: the pair `(cursorX, cursorY)` for each arrow key. -/
def moveCursorRef (key : Int) (E : Editor) : Int × Int :=
  if key = ARROW_LEFT then
    if E.cursorX > 0 then (E.cursorX - 1, E.cursorY)
    else if E.cursorY > 0 then (rowLen E (E.cursorY - 1), E.cursorY - 1)
    else (E.cursorX, E.cursorY)
  else if key = ARROW_RIGHT then
    if E.cursorX < rowLen E E.cursorY then (E.cursorX + 1, E.cursorY)
    else if E.cursorY < E.totalRows - 1 then (0, E.cursorY + 1)
    else (E.cursorX, E.cursorY)
  else if key = ARROW_UP then
    match rowAt E (E.cursorY - 1) with
    | some r => (min E.cursorX (strlen r), E.cursorY - 1)
    | none => (E.cursorX, E.cursorY)
  else if key = ARROW_DOWN then
    match rowAt E (E.cursorY + 1) with
    | some r => (min E.cursorX (strlen r), E.cursorY + 1)
    | none => (E.cursorX, E.cursorY)
  else (E.cursorX, E.cursorY)

/-- The cursor predicate of the reachable states: `0 ≤ cursorY ≤ totalRows`; on
an existing row the column lies in `[0, length of the row]`; one past the last
row the column is 0. -/
def CursorInv (E : Editor) : Prop :=
  0 ≤ E.cursorY ∧ E.cursorY ≤ E.totalRows ∧
  (E.cursorY < E.totalRows → 0 ≤ E.cursorX ∧ E.cursorX ≤ rowLen E E.cursorY) ∧
  (E.cursorY = E.totalRows → E.cursorX = 0)

instance (E : Editor) : Decidable (CursorInv E) := by
  unfold CursorInv; infer_instance

/-- No row holds a line feed (10) or a carriage return (13). -/
def NoTerminator (rows : List Row) : Prop :=
  ∀ r ∈ rows, ∀ b ∈ r, b ≠ 10 ∧ b ≠ 13

/-- The loop of `saveFile` (lines 341-344): `fprintf(fp, "%s\n", textRows[i])`
for the `n` indices from `i` on; the result is the bytes written. -/
def saveLoop (E : Editor) : Int → Nat → Option (List Int)
  | _, 0 => some []
  | i, n + 1 =>
    match rowAt E i with
    | none => none
    | some r =>
      match saveLoop E (i + 1) n with
      | none => none
      | some rest => some (r ++ 10 :: rest)

/-- The function `saveFile()`.  `fopenOk` says whether `fopen` returned a
stream (which file name is asked for and opened is not modelled).  The result
is the editor state afterwards, `saveFile` assigns none of the modelled fields,
and the bytes written to the file, if it was opened. -/
def saveFile (fopenOk : Bool) (E : Editor) : Option (Editor × Option (List Int)) :=
  if fopenOk then
    match saveLoop E 0 E.totalRows.toNat with
    | none => none
    | some bytes => some (E, some bytes)
  else some (E, none)

/-- The function `countDigits(num)`: `(int)log10(num) + 1` is taken as the
number of decimal digits of `num`, with `log10` as the exact logarithm. -/
def countDigits (num : Int) : Int :=
  let n : Int := if num < 0 then -num else num
  if n = 0 then 1 else ((Nat.toDigits 10 n.toNat).length : Int)

/-- One output call of `refreshScreen`. -/
inductive Draw where
  /-- The call `mvprintw(y, 0, "~")`. -/
  | tilde (y : Int)
  /-- The call `mvprintw(y, 0, "%d ", n)`. -/
  | lineNumber (y : Int) (n : Int)
  /-- The call `mvprintw(y, x, "%s", row)`; byte `j` of `row` lands in column `x + j`. -/
  | text (y : Int) (x : Int) (row : Row)
  /-- The status line: character count, row count, cursor row and column, 1-based. -/
  | status (chars : Int) (rows : Int) (line : Int) (col : Int)
deriving DecidableEq, Repr

/-- What `refreshScreen` leaves on the terminal: the output calls in order and
the arguments `(y, x)` of the final `move`. -/
structure Screen where
  draws : List Draw
  cursor : Int × Int
deriving DecidableEq, Repr

/-- The first loop of `refreshScreen` (lines 201-217) for the `n` screen rows
from `y` on. -/
def refreshRows (E : Editor) : Int → Nat → Option (List Draw)
  | _, 0 => some []
  | y, n + 1 =>
    let fileRow : Int := y + E.rowOffset
    let line : Option (List Draw) :=
      if fileRow ≥ E.totalRows then some [Draw.tilde y]
      else
        match rowAt E fileRow with
        | none => none
        | some r => some [Draw.lineNumber y (fileRow + 1), Draw.text y 2 r]
    match line with
    | none => none
    | some ds =>
      match refreshRows E (y + 1) n with
      | none => none
      | some rest => some (ds ++ rest)

/-- The function `refreshScreen()`. -/
def refreshScreen (E : Editor) : Option Screen :=
  match refreshRows E 0 E.terminalRows.toNat with
  | none => none
  | some ds =>
    let charCount : Int := (E.textRows.map strlen).sum
    let digit_offset : Int := countDigits (E.totalRows + 1) + 1
    some
      { draws := ds ++ [Draw.status charCount E.totalRows (E.cursorY + 1) (E.cursorX + 1)]
        cursor := (E.cursorY - E.rowOffset, E.cursorX + digit_offset) }

/-- The value of a `char` holding the byte `b` once converted to `int`:
`b` itself where `char` is unsigned, and `b - 256` for `b ≥ 128` where `char`
is signed. -/
def charToInt (charSigned : Bool) (b : Int) : Int :=
  if charSigned ∧ b ≥ 128 then b - 256 else b

/-- The function `readKeyInput()` on the bytes (0..255) that standard input
delivers, returning the key code and the bytes left.  `charSigned` is the
signedness of `char` on the platform.  On an exhausted input the first `read`
never returns 1 and the function never returns (`none`); an exhausted input
after ESC makes a later `read` return 0 and the function returns 27. -/
def readKeyInput (charSigned : Bool) : List Int → Option (Int × List Int)
  | [] => none
  | b :: rest =>
    if b = 27 then
      match rest with
      | [] => some (27, [])
      | s0 :: rest1 =>
        match rest1 with
        | [] => some (27, [])
        | s1 :: rest2 =>
          if s0 = 91 then
            if s1 = 65 then some (ARROW_UP, rest2)
            else if s1 = 66 then some (ARROW_DOWN, rest2)
            else if s1 = 67 then some (ARROW_RIGHT, rest2)
            else if s1 = 68 then some (ARROW_LEFT, rest2)
            else some (27, rest2)
          else some (27, rest2)
    else some (charToInt charSigned b, rest)

/-! ## List lemmas -/

theorem take_app {α : Type} (A L : List α) (n : Nat) (hn : A.length = n) :
    (A ++ L).take n = A := by
  subst hn; simp

theorem drop_app {α : Type} (A L : List α) (n : Nat) (hn : A.length = n) :
    (A ++ L).drop n = L := by
  subst hn; simp

theorem set_app {α : Type} (A B : List α) (r s : α) (n : Nat) (hn : A.length = n) :
    (A ++ r :: B).set n s = A ++ s :: B := by
  subst hn; simp

theorem erase_app {α : Type} (A B : List α) (r : α) (n : Nat) (hn : A.length = n) :
    (A ++ r :: B).eraseIdx n = A ++ B := by
  subst hn
  induction A with
  | nil => simp
  | cons a A ih => simpa using ih

theorem get_app {α : Type} (A B : List α) (r : α) (n : Nat) (hn : A.length = n) :
    (A ++ r :: B)[n]? = some r := by
  subst hn
  induction A with
  | nil => simp
  | cons a A ih => simpa using ih

theorem split_at {α : Type} (l : List α) (n : Nat) (r : α) (h : l[n]? = some r) :
    ∃ A B, l = A ++ r :: B ∧ A.length = n := by
  obtain ⟨hn, rfl⟩ := List.getElem?_eq_some.mp h
  exact ⟨l.take n, l.drop (n + 1), by simp, by simp; omega⟩

/-! ## Reading a row -/

/-- A row that `rowAt` finds at index `i` splits the buffer into the `i` rows
in front of it and the rows behind it. -/
theorem rowAt_split (E : Editor) (i : Int) (row : Row) (h : rowAt E i = some row) :
    ∃ A B, E.textRows = A ++ row :: B ∧ (A.length : Int) = i := by
  unfold rowAt at h
  split at h
  · exact absurd h (by simp)
  · obtain ⟨A, B, h1, h2⟩ := split_at _ _ _ h
    exact ⟨A, B, h1, by omega⟩

/-- The read `textRows[i]` succeeds exactly on the indices `0 ≤ i < totalRows`. -/
theorem rowAt_isSome_iff (E : Editor) (i : Int) :
    (∃ row, rowAt E i = some row) ↔ 0 ≤ i ∧ i < E.totalRows := by
  unfold rowAt Editor.totalRows
  constructor
  · rintro ⟨row, h⟩
    split at h
    · exact absurd h (by simp)
    · obtain ⟨hn, _⟩ := List.getElem?_eq_some.mp h
      omega
  · rintro ⟨h0, h1⟩
    have hn : i.toNat < E.textRows.length := by omega
    exact ⟨E.textRows[i.toNat], by simp [show ¬ i < 0 by omega, List.getElem?_eq_getElem hn]⟩

theorem rowAt_mem (E : Editor) (i : Int) (r : Row) (h : rowAt E i = some r) :
    r ∈ E.textRows := by
  unfold rowAt at h
  split at h
  · exact absurd h (by simp)
  · exact List.getElem?_mem h

theorem rowAt_app (cx cy ro co tr tc : Int) (A B : List Row) (row : Row)
    (hy : (A.length : Int) = cy) :
    rowAt ⟨cx, cy, ro, co, tr, tc, A ++ row :: B⟩ cy = some row := by
  unfold rowAt
  have h1 : ¬ cy < 0 := by omega
  have h2 : A.length = cy.toNat := by omega
  simp only [h1, if_false]
  exact get_app A B row _ h2

/-! ## The editing operations on a buffer split at the cursor row -/

theorem insertRow_app (pos : Int) (s : Row) (cx cy ro co tr tc : Int) (A B : List Row)
    (hp : (A.length : Int) = pos) :
    insertRow pos s ⟨cx, cy, ro, co, tr, tc, A ++ B⟩ = ⟨cx, cy, ro, co, tr, tc, A ++ s :: B⟩ := by
  have hA : A.length = pos.toNat := by omega
  have hr : ¬ (pos < 0 ∨ pos > ((A ++ B).length : Int)) := by
    simp only [List.length_append]; push_cast; omega
  simp only [insertRow, Editor.totalRows, hr, if_false, take_app A _ _ hA, drop_app A _ _ hA]

theorem insertNewLine_app (cx cy ro co tr tc : Int) (A B : List Row) (row : Row)
    (hy : (A.length : Int) = cy) (h0 : 0 ≤ cx) (h1 : cx ≤ strlen row) :
    insertNewLine ⟨cx, cy, ro, co, tr, tc, A ++ row :: B⟩ =
      some ⟨0, cy + 1, ro, co, tr, tc,
        A ++ row.take cx.toNat :: row.drop cx.toNat :: B⟩ := by
  have hA : A.length = cy.toNat := by omega
  by_cases hc : cx = 0
  · subst hc
    simp only [insertNewLine, if_true, insertRow_app cy [] 0 cy ro co tr tc A (row :: B) hy]
    simp
  · have hb : ¬ (cx < 0 ∨ cx > strlen row) := by omega
    have e1 : insertRow (cy + 1) (row.drop cx.toNat) ⟨cx, cy, ro, co, tr, tc, A ++ row :: B⟩
        = ⟨cx, cy, ro, co, tr, tc, A ++ row :: row.drop cx.toNat :: B⟩ := by
      have := insertRow_app (cy + 1) (row.drop cx.toNat) cx cy ro co tr tc (A ++ [row]) B
        (by simp; omega)
      simpa using this
    simp only [insertNewLine, hc, if_false, rowAt_app cx cy ro co tr tc A B row hy, hb, e1,
      set_app A _ row _ _ hA]

theorem deleteChar_char_app (cx cy ro co tr tc : Int) (A B : List Row) (row : Row)
    (hy : (A.length : Int) = cy) (h0 : 0 < cx) (h1 : cx ≤ strlen row + 1) :
    deleteChar ⟨cx, cy, ro, co, tr, tc, A ++ row :: B⟩ =
      some ⟨cx - 1, cy, ro, co, tr, tc,
        A ++ (row.take (cx - 1).toNat ++ row.drop cx.toNat) :: B⟩ := by
  have hA : A.length = cy.toNat := by omega
  have hg : ¬ (cy ≥ ((A ++ row :: B).length : Int) ∨ (cx = 0 ∧ cy = 0)) := by
    simp only [List.length_append, List.length_cons]; push_cast; omega
  have hb : ¬ (cx > strlen row + 1) := by omega
  simp only [deleteChar, Editor.totalRows, hg, if_false, rowAt_app cx cy ro co tr tc A B row hy,
    h0, if_true, hb, set_app A _ row _ _ hA]

theorem deleteChar_merge_app (cx cy ro co tr tc : Int) (A B : List Row) (prev row : Row)
    (hy : (A.length : Int) + 1 = cy) (h0 : cx ≤ 0) :
    deleteChar ⟨cx, cy, ro, co, tr, tc, A ++ prev :: row :: B⟩ =
      some ⟨strlen prev, cy - 1, ro, co, tr, tc, A ++ (prev ++ row) :: B⟩ := by
  have hA : A.length = (cy - 1).toNat := by omega
  have hA1 : (A ++ [prev]).length = cy.toNat := by simp; omega
  have hg : ¬ (cy ≥ ((A ++ prev :: row :: B).length : Int) ∨ (cx = 0 ∧ cy = 0)) := by
    simp only [List.length_append, List.length_cons]; push_cast; omega
  have hx : ¬ cx > 0 := by omega
  have r1 : rowAt ⟨cx, cy, ro, co, tr, tc, A ++ prev :: row :: B⟩ cy = some row := by
    have := rowAt_app cx cy ro co tr tc (A ++ [prev]) B row (by simp; omega)
    simpa using this
  have r2 : rowAt ⟨cx, cy, ro, co, tr, tc, A ++ prev :: row :: B⟩ (cy - 1) = some prev := by
    unfold rowAt
    simp only [show ¬ cy - 1 < 0 by omega, if_false]
    exact get_app A _ prev _ hA
  have e1 : ((A ++ prev :: row :: B).set (cy - 1).toNat (prev ++ row)).eraseIdx cy.toNat
      = A ++ (prev ++ row) :: B := by
    rw [set_app A _ prev _ _ hA]
    have := erase_app (A ++ [prev ++ row]) B row cy.toNat (by simp; omega)
    simpa using this
  simp only [deleteChar, Editor.totalRows, hg, if_false, r1, hx, r2, e1]

theorem deleteChar_guard (E : Editor)
    (h : E.cursorY ≥ E.totalRows ∨ (E.cursorX = 0 ∧ E.cursorY = 0)) :
    deleteChar E = some E := by
  simp only [deleteChar, h, if_true]

theorem insertChar_app (c cx cy ro co tr tc : Int) (A B : List Row) (row : Row)
    (hy : (A.length : Int) = cy) (h0 : 0 ≤ cx) (h1 : cx ≤ strlen row) :
    insertChar c ⟨cx, cy, ro, co, tr, tc, A ++ row :: B⟩ =
      if cx + 1 ≥ tc then
        some ⟨0, cy + 1, ro, co, tr, tc,
          A ++ putByte row cx.toNat (c % 256) :: (if B = [] then [[]] else B)⟩
      else
        some ⟨cx + 1, cy, ro, co, tr, tc, A ++ putByte row cx.toNat (c % 256) :: B⟩ := by
  have hA : A.length = cy.toNat := by omega
  have hg : ¬ (cy ≥ ((A ++ row :: B).length : Int)) := by
    simp only [List.length_append, List.length_cons]; push_cast; omega
  have hb : ¬ (cx < 0 ∨ cx > strlen row) := by omega
  simp only [insertChar, Editor.totalRows, hg, if_false,
    rowAt_app cx cy ro co tr tc A B row hy, hb, set_app A _ row _ _ hA]
  by_cases hw : cx + 1 ≥ tc
  · simp only [hw, if_true]
    by_cases hB : B = []
    · subst hB
      have hl : ¬ (cy < ((A ++ [putByte row cx.toNat (c % 256)]).length : Int) - 1) := by
        simp only [List.length_append, List.length_cons, List.length_nil]; push_cast; omega
      have := insertRow_app ((A ++ [putByte row cx.toNat (c % 256)]).length : Int) [] 0 cy ro co
        tr tc (A ++ [putByte row cx.toNat (c % 256)]) [] rfl
      simp only [List.append_nil] at this
      simp only [hl, if_false, this, if_true]
      simp
    · have hl : cy < ((A ++ putByte row cx.toNat (c % 256) :: B).length : Int) - 1 := by
        have : 0 < B.length := List.length_pos.mpr hB
        simp only [List.length_append, List.length_cons]; push_cast; omega
      simp only [hl, if_true, hB, if_false]
  · simp only [hw, if_false]

theorem insertChar_append (c cx cy ro co tr tc : Int) (A : List Row)
    (hy : (A.length : Int) = cy) :
    insertChar c ⟨cx, cy, ro, co, tr, tc, A⟩ =
      insertChar c ⟨cx, cy, ro, co, tr, tc, A ++ [[]]⟩ := by
  have e0 := insertRow_app (A.length : Int) [] cx cy ro co tr tc A [] rfl
  simp only [List.append_nil] at e0
  have g1 : cy ≥ (A.length : Int) := by omega
  have g2 : ¬ (cy ≥ ((A ++ [[]]).length : Int)) := by
    simp only [List.length_append, List.length_cons, List.length_nil]; push_cast; omega
  simp only [insertChar, Editor.totalRows, g1, g2, if_true, if_false, e0]

theorem putByte_end (row : Row) (cx b : Int) (hx : cx = strlen row) (hb : b ≠ 0) :
    putByte row cx.toNat b = row ++ [b] := by
  have h : cx.toNat = row.length := by unfold strlen at hx; omega
  simp only [putByte, hb, if_false, h, List.take_length, List.drop_length]

/-- Typing at the end of the last row, with hard wrap at `cols`: the rows in
front of the last one stay full (`cols` bytes each), the last row stays
shorter than `cols`, the cursor stays at its end, and the rows concatenated
grow by the bytes typed. -/
theorem insertChars_wrap (cols : Int) :
    ∀ (cs : List Int) (cx cy ro co tr : Int) (A : List Row) (last : Row),
      (∀ c ∈ cs, c % 256 ≠ 0) → (A.length : Int) = cy → cx = strlen last →
      strlen last < cols → (∀ r ∈ A, strlen r = cols) →
      ∃ (A1 : List Row) (last1 : Row),
        insertChars cs ⟨cx, cy, ro, co, tr, cols, A ++ [last]⟩ =
          some ⟨strlen last1, (A1.length : Int), ro, co, tr, cols, A1 ++ [last1]⟩ ∧
        strlen last1 < cols ∧ (∀ r ∈ A1, strlen r = cols) ∧
        (A1 ++ [last1]).flatten = (A ++ [last]).flatten ++ cs.map (fun c => c % 256) := by
  intro cs
  induction cs with
  | nil =>
    intro cx cy ro co tr A last _ hy hx hl hA
    exact ⟨A, last, by simp [insertChars, hy, hx], hl, hA, by simp⟩
  | cons c cs ih =>
    intro cx cy ro co tr A last hcs hy hx hl hA
    have hb : c % 256 ≠ 0 := hcs c (List.mem_cons_self _ _)
    have hcs1 : ∀ d ∈ cs, d % 256 ≠ 0 := fun d hd => hcs d (List.mem_cons_of_mem _ hd)
    have hx0 : 0 ≤ cx := by unfold strlen at hx; omega
    have hstep := insertChar_app c cx cy ro co tr cols A [] last hy hx0 (le_of_eq hx)
    rw [putByte_end last cx (c % 256) hx hb] at hstep
    by_cases hw : cx + 1 ≥ cols
    · simp only [hw, if_true] at hstep
      have hfull : strlen (last ++ [c % 256]) = cols := by
        unfold strlen at *; simp only [List.length_append, List.length_singleton]
        push_cast; omega
      obtain ⟨A1, last1, h1, h2, h3, h4⟩ := ih 0 (cy + 1) ro co tr (A ++ [last ++ [c % 256]]) []
        hcs1 (by simp; omega) (by simp [strlen]) (by simp [strlen]; omega)
        (by
          intro r hr
          rcases List.mem_append.mp hr with h | h
          · exact hA r h
          · rw [List.mem_singleton.mp h]; exact hfull)
      refine ⟨A1, last1, ?_, h2, h3, ?_⟩
      · simp only [insertChars, hstep]
        simpa using h1
      · rw [h4]; simp
    · simp only [hw, if_false] at hstep
      obtain ⟨A1, last1, h1, h2, h3, h4⟩ := ih (cx + 1) cy ro co tr A (last ++ [c % 256])
        hcs1 hy (by unfold strlen at *; simp only [List.length_append, List.length_singleton]
                    push_cast; omega)
        (by unfold strlen at *; simp only [List.length_append, List.length_singleton]
            push_cast; omega) hA
      refine ⟨A1, last1, ?_, h2, h3, ?_⟩
      · simp only [insertChars, hstep]
        exact h1
      · rw [h4]; simp

/-- Two adjacent rows found by `rowAt` split the buffer around them. -/
theorem rowAt_split_two (E : Editor) (i : Int) (prev row : Row)
    (hprev : rowAt E (i - 1) = some prev) (hrow : rowAt E i = some row) :
    ∃ A B, E.textRows = A ++ prev :: row :: B ∧ (A.length : Int) + 1 = i := by
  obtain ⟨A, B1, h1, h2⟩ := rowAt_split E _ prev hprev
  refine ⟨A, B1.tail, ?_, by omega⟩
  unfold rowAt at hrow
  rw [if_neg (by omega), h1] at hrow
  have hi : i.toNat = (A ++ [prev]).length + 0 := by simp; omega
  rw [show A ++ prev :: B1 = (A ++ [prev]) ++ B1 by simp, hi,
    List.getElem?_append_right (by omega)] at hrow
  simp only [add_tsub_cancel_left] at hrow
  cases B1 with
  | nil => simp at hrow
  | cons b B2 =>
    simp only [List.getElem?_cons_zero, Option.some.injEq] at hrow
    simp [h1, hrow]

/-! ## Cursor movement -/

/-- The switch of `moveCursor` leaves the terminal size alone. -/
theorem cursorStep_terminal (key : Int) (E E1 : Editor) (h : cursorStep key E = some E1) :
    E1.terminalRows = E.terminalRows ∧ E1.terminalCols = E.terminalCols := by
  unfold cursorStep at h
  split_ifs at h <;> first
    | (cases h; exact ⟨rfl, rfl⟩)
    | (split at h <;> first
        | (cases h; done)
        | (split_ifs at h <;> cases h <;> exact ⟨rfl, rfl⟩)
        | (cases h; exact ⟨rfl, rfl⟩))

/-- The scroll adjustment, field by field. -/
theorem reconcileViewport_mk (cx cy ro co tr tc : Int) (rows : List Row) :
    reconcileViewport ⟨cx, cy, ro, co, tr, tc, rows⟩ =
      ⟨cx, cy,
        if cy < ro then cy
        else if cy ≥ wrapInt (ro + tr) then wrapInt (wrapInt (cy - tr) + 1) else ro,
        if cx < co then cx
        else if cx ≥ wrapInt (co + tc) then wrapInt (wrapInt (cx - tc) + 1) else co,
        tr, tc, rows⟩ := by
  by_cases h1 : cy < ro <;> by_cases h2 : cy ≥ wrapInt (ro + tr) <;> by_cases h3 : cx < co <;>
    by_cases h4 : cx ≥ wrapInt (co + tc) <;> simp [reconcileViewport, h1, h2, h3, h4]

/-- One coordinate of the scroll adjustment: for `int` values `c`, `o` and a
size `t ≥ 1` the new offset leaves `c` inside the window, also when `o + t`
wraps around. -/
theorem scroll_window (c o t : Int) (ht : 1 ≤ t) (hc : INT_MIN ≤ c ∧ c ≤ INT_MAX)
    (ho : INT_MIN ≤ o ∧ o ≤ INT_MAX) (htm : t ≤ INT_MAX) :
    0 ≤ c - (if c < o then c
        else if c ≥ wrapInt (o + t) then wrapInt (wrapInt (c - t) + 1) else o) ∧
    c - (if c < o then c
        else if c ≥ wrapInt (o + t) then wrapInt (wrapInt (c - t) + 1) else o) < t := by
  unfold INT_MIN INT_MAX at *
  unfold wrapInt
  split_ifs <;> omega

/-- One coordinate of the scroll adjustment when `o + t` stays in the `int`
range: the new offset is the one of the exact arithmetic, and non-negative. -/
theorem scroll_exact (c o t : Int) (ht : 1 ≤ t) (hc : 0 ≤ c ∧ c ≤ INT_MAX) (ho : 0 ≤ o)
    (hsum : o + t ≤ INT_MAX) :
    (if c < o then c
      else if c ≥ wrapInt (o + t) then wrapInt (wrapInt (c - t) + 1) else o) =
      (if c < o then c else if c ≥ o + t then c - t + 1 else o) ∧
    0 ≤ (if c < o then c
      else if c ≥ wrapInt (o + t) then wrapInt (wrapInt (c - t) + 1) else o) := by
  unfold INT_MAX at *
  unfold wrapInt
  split_ifs <;> omega

/-- After the scroll adjustment the cursor is inside the window, for `int`
values of cursor, offsets and terminal size. -/
theorem reconcileViewport_window (E : Editor) (hr : 1 ≤ E.terminalRows)
    (hc : 1 ≤ E.terminalCols)
    (hrm : E.terminalRows ≤ INT_MAX) (hcm : E.terminalCols ≤ INT_MAX)
    (hy : INT_MIN ≤ E.cursorY ∧ E.cursorY ≤ INT_MAX)
    (hx : INT_MIN ≤ E.cursorX ∧ E.cursorX ≤ INT_MAX)
    (hro : INT_MIN ≤ E.rowOffset ∧ E.rowOffset ≤ INT_MAX)
    (hco : INT_MIN ≤ E.colOffset ∧ E.colOffset ≤ INT_MAX) :
    0 ≤ (reconcileViewport E).cursorY - (reconcileViewport E).rowOffset ∧
    (reconcileViewport E).cursorY - (reconcileViewport E).rowOffset
      < (reconcileViewport E).terminalRows ∧
    0 ≤ (reconcileViewport E).cursorX - (reconcileViewport E).colOffset ∧
    (reconcileViewport E).cursorX - (reconcileViewport E).colOffset
      < (reconcileViewport E).terminalCols := by
  obtain ⟨cx, cy, ro, co, tr, tc, rows⟩ := E
  simp only at hr hc hrm hcm hy hx hro hco
  rw [reconcileViewport_mk]
  have h1 := scroll_window cy ro tr hr hy hro hrm
  have h2 := scroll_window cx co tc hc hx hco hcm
  exact ⟨h1.1, h1.2, h2.1, h2.2⟩

/-- The read `textRows[i]` depends on the rows only. -/
theorem rowAt_congr (E E1 : Editor) (h : E1.textRows = E.textRows) (i : Int) :
    rowAt E1 i = rowAt E i := by
  unfold rowAt; rw [h]

/-- On a cursor that is on an existing row at a valid column, the switch of
`moveCursor` returns, leaves the rows alone and leaves the cursor on an
existing row at a valid column. -/
theorem cursorStep_keeps_cursor (key : Int) (E : Editor) (row : Row)
    (hrow : rowAt E E.cursorY = some row) (h0 : 0 ≤ E.cursorX)
    (h1 : E.cursorX ≤ strlen row) :
    ∃ E1 row1, cursorStep key E = some E1 ∧ E1.textRows = E.textRows ∧
      rowAt E1 E1.cursorY = some row1 ∧ 0 ≤ E1.cursorX ∧ E1.cursorX ≤ strlen row1 := by
  have hy := (rowAt_isSome_iff E E.cursorY).mp ⟨row, hrow⟩
  have hlen0 : ∀ r : Row, 0 ≤ strlen r := fun r => by unfold strlen; omega
  unfold cursorStep
  by_cases hL : key = ARROW_LEFT
  · simp only [hL, if_true]
    by_cases hx : E.cursorX > 0
    · simp only [hx, if_true]
      exact ⟨_, row, rfl, rfl, hrow, by simp only; omega, by simp only; omega⟩
    · simp only [hx, if_false]
      by_cases hy0 : E.cursorY > 0
      · simp only [hy0, if_true]
        obtain ⟨r, hr⟩ := (rowAt_isSome_iff E (E.cursorY - 1)).mpr ⟨by omega, by omega⟩
        simp only [hr]
        exact ⟨_, r, rfl, rfl, (rowAt_congr E _ rfl _).trans hr, hlen0 r, le_refl _⟩
      · simp only [hy0, if_false]
        exact ⟨E, row, rfl, rfl, hrow, h0, h1⟩
  · simp only [hL, if_false]
    by_cases hR : key = ARROW_RIGHT
    · simp only [hR, if_true, hrow]
      by_cases hlt : intLtSize E.cursorX (strlen row) = true
      · simp only [hlt, if_true]
        have : 0 ≤ E.cursorX ∧ E.cursorX < strlen row := by simpa [intLtSize] using hlt
        exact ⟨_, row, rfl, rfl, hrow, by simp only; omega, by simp only; omega⟩
      · simp only [hlt, if_false]
        by_cases hn : E.cursorY < E.totalRows - 1
        · simp only [hn, if_true]
          obtain ⟨r, hr⟩ := (rowAt_isSome_iff E (E.cursorY + 1)).mpr ⟨by omega, by omega⟩
          exact ⟨_, r, rfl, rfl, (rowAt_congr E _ rfl _).trans hr, le_refl _, hlen0 r⟩
        · simp only [hn, if_false]
          exact ⟨E, row, rfl, rfl, hrow, h0, h1⟩
    · simp only [hR, if_false]
      by_cases hU : key = ARROW_UP
      · simp only [hU, if_true]
        by_cases hy0 : E.cursorY > 0
        · simp only [hy0, if_true]
          obtain ⟨r, hr⟩ := (rowAt_isSome_iff E (E.cursorY - 1)).mpr ⟨by omega, by omega⟩
          simp only [hr]
          by_cases hgt : intGtSize E.cursorX (strlen r) = true
          · simp only [hgt, if_true]
            exact ⟨_, r, rfl, rfl, (rowAt_congr E _ rfl _).trans hr, hlen0 r, le_refl _⟩
          · simp only [hgt, if_false]
            have : ¬ (E.cursorX < 0 ∨ E.cursorX > strlen r) := by simpa [intGtSize] using hgt
            exact ⟨_, r, rfl, rfl, (rowAt_congr E _ rfl _).trans hr, h0,
              by simp only; omega⟩
        · simp only [hy0, if_false]
          exact ⟨E, row, rfl, rfl, hrow, h0, h1⟩
      · simp only [hU, if_false]
        by_cases hD : key = ARROW_DOWN
        · simp only [hD, if_true]
          by_cases hn : E.cursorY < E.totalRows - 1
          · simp only [hn, if_true]
            obtain ⟨r, hr⟩ := (rowAt_isSome_iff E (E.cursorY + 1)).mpr ⟨by omega, by omega⟩
            simp only [hr]
            by_cases hgt : intGtSize E.cursorX (strlen r) = true
            · simp only [hgt, if_true]
              exact ⟨_, r, rfl, rfl, (rowAt_congr E _ rfl _).trans hr, hlen0 r, le_refl _⟩
            · simp only [hgt, if_false]
              have : ¬ (E.cursorX < 0 ∨ E.cursorX > strlen r) := by
                simpa [intGtSize] using hgt
              exact ⟨_, r, rfl, rfl, (rowAt_congr E _ rfl _).trans hr, h0,
                by simp only; omega⟩
          · simp only [hn, if_false]
            exact ⟨E, row, rfl, rfl, hrow, h0, h1⟩
        · simp only [hD, if_false]
          exact ⟨E, row, rfl, rfl, hrow, h0, h1⟩

/-- The scroll adjustment changes the two offsets only. -/
theorem reconcileViewport_frame (E : Editor) :
    (reconcileViewport E).cursorX = E.cursorX ∧ (reconcileViewport E).cursorY = E.cursorY ∧
    (reconcileViewport E).textRows = E.textRows ∧
    (reconcileViewport E).terminalRows = E.terminalRows ∧
    (reconcileViewport E).terminalCols = E.terminalCols := by
  obtain ⟨cx, cy, ro, co, tr, tc, rows⟩ := E
  rw [reconcileViewport_mk]
  exact ⟨rfl, rfl, rfl, rfl, rfl⟩

/-- On a buffer with rows: with the cursor on an existing row at a valid
column, `moveCursor` returns for every key, leaves the rows unchanged and
leaves the cursor on an existing row at a valid column. -/
theorem moveCursor_keeps_cursor (key : Int) (E : Editor) (row : Row)
    (hrow : rowAt E E.cursorY = some row) (h0 : 0 ≤ E.cursorX)
    (h1 : E.cursorX ≤ strlen row) :
    ∃ E1 row1, moveCursor key E = some E1 ∧ E1.textRows = E.textRows ∧
      rowAt E1 E1.cursorY = some row1 ∧ 0 ≤ E1.cursorX ∧ E1.cursorX ≤ strlen row1 := by
  obtain ⟨E1, row1, hs, ht, hr, hx0, hx1⟩ := cursorStep_keeps_cursor key E row hrow h0 h1
  obtain ⟨fx, fy, ft, _, _⟩ := reconcileViewport_frame E1
  refine ⟨reconcileViewport E1, row1, by simp [moveCursor, hs], by rw [ft, ht], ?_, ?_, ?_⟩
  · rw [rowAt_congr E1 _ ft, fy]; exact hr
  · rw [fx]; exact hx0
  · rw [fx]; exact hx1

/-- The same for any finite sequence of keys. -/
theorem moveCursors_keeps_cursor (keys : List Int) :
    ∀ (E : Editor) (row : Row), rowAt E E.cursorY = some row → 0 ≤ E.cursorX →
      E.cursorX ≤ strlen row →
      ∃ E1 row1, moveCursors keys E = some E1 ∧ E1.textRows = E.textRows ∧
        rowAt E1 E1.cursorY = some row1 ∧ 0 ≤ E1.cursorX ∧ E1.cursorX ≤ strlen row1 := by
  induction keys with
  | nil => intro E row hrow h0 h1; exact ⟨E, row, rfl, rfl, hrow, h0, h1⟩
  | cons k ks ih =>
    intro E row hrow h0 h1
    obtain ⟨E1, row1, hs, ht, hr, hx0, hx1⟩ := moveCursor_keeps_cursor k E row hrow h0 h1
    obtain ⟨E2, row2, hs2, ht2, hr2, hx2, hx3⟩ := ih E1 row1 hr hx0 hx1
    exact ⟨E2, row2, by simp only [moveCursors, hs]; exact hs2, by rw [ht2, ht], hr2, hx2, hx3⟩

/-- The switch of `moveCursor` keeps the cursor an `int` and leaves offsets and
terminal size alone, on a buffer whose row count and row lengths are `int`s. -/
theorem cursorStep_range (key : Int) (E E1 : Editor)
    (hx : 0 ≤ E.cursorX ∧ E.cursorX ≤ INT_MAX) (hy : 0 ≤ E.cursorY ∧ E.cursorY ≤ INT_MAX)
    (htot : E.totalRows ≤ INT_MAX) (hrows : ∀ r ∈ E.textRows, strlen r ≤ INT_MAX)
    (hs : cursorStep key E = some E1) :
    (INT_MIN ≤ E1.cursorX ∧ E1.cursorX ≤ INT_MAX) ∧
    (INT_MIN ≤ E1.cursorY ∧ E1.cursorY ≤ INT_MAX) ∧
    E1.rowOffset = E.rowOffset ∧ E1.colOffset = E.colOffset ∧
    E1.terminalRows = E.terminalRows ∧ E1.terminalCols = E.terminalCols := by
  have hlen : ∀ (i : Int) (r : Row), rowAt E i = some r → 0 ≤ strlen r ∧ strlen r ≤ INT_MAX := by
    intro i r hr
    exact ⟨by unfold strlen; omega, hrows r (rowAt_mem E i r hr)⟩
  unfold INT_MIN
  unfold INT_MAX at hx hy htot hlen ⊢
  unfold cursorStep at hs
  by_cases hL : key = ARROW_LEFT
  · rw [if_pos hL] at hs
    by_cases h1 : E.cursorX > 0
    · rw [if_pos h1] at hs
      cases hs
      refine ⟨⟨?_, ?_⟩, ⟨?_, ?_⟩, rfl, rfl, rfl, rfl⟩ <;> simp only <;> omega
    · rw [if_neg h1] at hs
      by_cases h2 : E.cursorY > 0
      · rw [if_pos h2] at hs
        cases hr : rowAt E (E.cursorY - 1) with
        | none => simp [hr] at hs
        | some r =>
          have := hlen _ r hr
          simp only [hr] at hs
          cases hs
          refine ⟨⟨?_, ?_⟩, ⟨?_, ?_⟩, rfl, rfl, rfl, rfl⟩ <;> simp only <;> omega
      · rw [if_neg h2] at hs
        cases hs
        exact ⟨⟨by omega, by omega⟩, ⟨by omega, by omega⟩, rfl, rfl, rfl, rfl⟩
  · rw [if_neg hL] at hs
    by_cases hR : key = ARROW_RIGHT
    · rw [if_pos hR] at hs
      cases hr : rowAt E E.cursorY with
      | none => simp [hr] at hs
      | some r =>
        have := hlen _ r hr
        simp only [hr] at hs
        by_cases h1 : intLtSize E.cursorX (strlen r) = true
        · rw [if_pos h1] at hs
          have h1' : 0 ≤ E.cursorX ∧ E.cursorX < strlen r := by simpa [intLtSize] using h1
          cases hs
          refine ⟨⟨?_, ?_⟩, ⟨?_, ?_⟩, rfl, rfl, rfl, rfl⟩ <;> simp only <;> omega
        · rw [if_neg h1] at hs
          by_cases h2 : E.cursorY < E.totalRows - 1
          · rw [if_pos h2] at hs
            cases hs
            refine ⟨⟨?_, ?_⟩, ⟨?_, ?_⟩, rfl, rfl, rfl, rfl⟩ <;> simp only <;> omega
          · rw [if_neg h2] at hs
            cases hs
            exact ⟨⟨by omega, by omega⟩, ⟨by omega, by omega⟩, rfl, rfl, rfl, rfl⟩
    · rw [if_neg hR] at hs
      by_cases hU : key = ARROW_UP
      · rw [if_pos hU] at hs
        by_cases h2 : E.cursorY > 0
        · rw [if_pos h2] at hs
          cases hr : rowAt E (E.cursorY - 1) with
          | none => simp [hr] at hs
          | some r =>
            have := hlen _ r hr
            simp only [hr] at hs
            by_cases h1 : intGtSize E.cursorX (strlen r) = true
            · rw [if_pos h1] at hs
              cases hs
              refine ⟨⟨?_, ?_⟩, ⟨?_, ?_⟩, rfl, rfl, rfl, rfl⟩ <;> simp only <;> omega
            · rw [if_neg h1] at hs
              cases hs
              refine ⟨⟨?_, ?_⟩, ⟨?_, ?_⟩, rfl, rfl, rfl, rfl⟩ <;> simp only <;> omega
        · rw [if_neg h2] at hs
          cases hs
          exact ⟨⟨by omega, by omega⟩, ⟨by omega, by omega⟩, rfl, rfl, rfl, rfl⟩
      · rw [if_neg hU] at hs
        by_cases hD : key = ARROW_DOWN
        · rw [if_pos hD] at hs
          by_cases h2 : E.cursorY < E.totalRows - 1
          · rw [if_pos h2] at hs
            cases hr : rowAt E (E.cursorY + 1) with
            | none => simp [hr] at hs
            | some r =>
              have := hlen _ r hr
              simp only [hr] at hs
              by_cases h1 : intGtSize E.cursorX (strlen r) = true
              · rw [if_pos h1] at hs
                cases hs
                refine ⟨⟨?_, ?_⟩, ⟨?_, ?_⟩, rfl, rfl, rfl, rfl⟩ <;> simp only <;> omega
              · rw [if_neg h1] at hs
                cases hs
                refine ⟨⟨?_, ?_⟩, ⟨?_, ?_⟩, rfl, rfl, rfl, rfl⟩ <;> simp only <;> omega
          · rw [if_neg h2] at hs
            cases hs
            exact ⟨⟨by omega, by omega⟩, ⟨by omega, by omega⟩, rfl, rfl, rfl, rfl⟩
        · rw [if_neg hD] at hs
          cases hs
          exact ⟨⟨by omega, by omega⟩, ⟨by omega, by omega⟩, rfl, rfl, rfl, rfl⟩

/-! ## Claims -/

/-- C1 (split/merge round trip): in every editor state whose cursor is on an
existing row (`rowAt E E.cursorY = some row`, that is `0 ≤ cursorY < totalRows`)
at a valid column (`0 ≤ cursorX ≤ strlen row`), `insertNewLine` returns a state
on which `deleteChar` returns the original state: the same rows, hence the same
`totalRows`, the same cursor and the same offsets. -/
theorem insertNewLine_deleteChar_roundtrip (E : Editor) (row : Row)
    (hrow : rowAt E E.cursorY = some row) (h0 : 0 ≤ E.cursorX)
    (h1 : E.cursorX ≤ strlen row) :
    ∃ E1, insertNewLine E = some E1 ∧ deleteChar E1 = some E := by
  obtain ⟨A, B, hrows, hlen⟩ := rowAt_split E _ row hrow
  obtain ⟨cx, cy, ro, co, tr, tc, rows⟩ := E
  simp only at hrows hlen h0 h1
  subst hrows
  refine ⟨_, insertNewLine_app cx cy ro co tr tc A B row hlen h0 h1, ?_⟩
  rw [deleteChar_merge_app 0 (cy + 1) ro co tr tc A B _ _ (by omega) (le_refl 0)]
  have h2 : cx.toNat ≤ row.length := by unfold strlen at h1; omega
  have e1 : strlen (List.take cx.toNat row) = cx := by
    unfold strlen
    rw [List.length_take, Nat.min_eq_left h2]
    omega
  simp only [e1, List.take_append_drop, add_sub_cancel_right]

theorem insertNewLine_deleteChar_roundtrip_witness :
    ∃ E1, insertNewLine ⟨2, 1, 0, 0, 24, 80, [[104, 105], [97, 98, 99], []]⟩ = some E1 ∧
      deleteChar E1 = some ⟨2, 1, 0, 0, 24, 80, [[104, 105], [97, 98, 99], []]⟩ :=
  insertNewLine_deleteChar_roundtrip ⟨2, 1, 0, 0, 24, 80, [[104, 105], [97, 98, 99], []]⟩
    [97, 98, 99] (by decide) (by decide) (by decide)

/-- C2, as the claim states it, fails: on a terminal four columns wide the five
calls `insertChar('h')`, ..., `insertChar('o')` from the initial state leave the
two rows "hell" and "o", not the single row "hello". -/
theorem insertChars_single_line_counterexample :
    insertChars [104, 101, 108, 108, 111] (initializeEditor 24 4) =
        some ⟨1, 1, 0, 0, 24, 4, [[104, 101, 108, 108], [111]]⟩ ∧
      ¬ ∃ E, insertChars [104, 101, 108, 108, 111] (initializeEditor 24 4) = some E ∧
        E.textRows = [[104, 101, 108, 108, 111]] := by
  have h : insertChars [104, 101, 108, 108, 111] (initializeEditor 24 4) =
      some ⟨1, 1, 0, 0, 24, 4, [[104, 101, 108, 108], [111]]⟩ := by decide
  refine ⟨h, ?_⟩
  rintro ⟨E, h1, h2⟩
  rw [h] at h1
  cases h1
  exact absurd h2 (by decide)

/-- C2, amended: from the initial state with `terminalCols ≥ 1`, the calls
`insertChar(c1)`, ..., `insertChar(cn)` for characters other than NUL all
return, and afterwards the rows of the buffer concatenated in order are the
bytes of `c1..cn`; the buffer is the single line `c1..cn` when
`1 ≤ n < terminalCols`. -/
theorem insertChars_content (rows cols : Int) (cs : List Int) (hcols : 1 ≤ cols)
    (hcs : ∀ c ∈ cs, c % 256 ≠ 0) :
    ∃ E, insertChars cs (initializeEditor rows cols) = some E ∧
      E.textRows.flatten = cs.map (fun c => c % 256) ∧
      (cs ≠ [] → (cs.length : Int) < cols → E.textRows = [cs.map (fun c => c % 256)]) := by
  cases cs with
  | nil => exact ⟨initializeEditor rows cols, rfl, rfl, fun h => absurd rfl h⟩
  | cons c cs =>
    obtain ⟨A1, last1, h1, h2, h3, h4⟩ := insertChars_wrap cols (c :: cs) 0 0 0 0 rows [] []
      hcs rfl rfl (by simp only [strlen, List.length_nil]; push_cast; omega)
      (fun r hr => absurd hr (List.not_mem_nil r))
    have hstart : insertChars (c :: cs) (initializeEditor rows cols) =
        insertChars (c :: cs) ⟨0, 0, 0, 0, rows, cols, [] ++ [[]]⟩ := by
      simp only [insertChars, initializeEditor]
      rw [insertChar_append c 0 0 0 0 rows cols [] rfl]
    rw [hstart, h1]
    simp only [List.nil_append, List.flatten_cons, List.flatten_nil, List.append_nil] at h4
    refine ⟨_, rfl, h4, ?_⟩
    intro _ hlen
    cases A1 with
    | nil =>
      simp only [List.nil_append, List.flatten_cons, List.flatten_nil, List.append_nil] at h4
      simp only [List.nil_append, h4]
    | cons r A2 =>
      exfalso
      have hr : strlen r = cols := h3 r (List.mem_cons_self _ _)
      have hl := congrArg List.length h4
      simp only [List.cons_append, List.flatten_cons, List.length_append, List.length_map] at hl
      unfold strlen at hr
      omega

theorem insertChars_content_witness :
    ∃ E, insertChars [104, 105] (initializeEditor 24 80) = some E ∧
      E.textRows.flatten = [104, 105].map (fun c => c % 256) ∧
      (([104, 105] : List Int) ≠ [] → (([104, 105] : List Int).length : Int) < 80 →
        E.textRows = [[104, 105].map (fun c => c % 256)]) :=
  insertChars_content 24 80 [104, 105] (by decide) (by decide)

/-- C8 (`insertNewLine` against its reference definition): with the cursor on
an existing row `row` (`0 ≤ cursorY < totalRows`) at a column
`0 ≤ cursorX ≤ strlen row`, `insertNewLine` returns a state in which, for
`cursorX = 0`, an empty row stands at index `cursorY` in front of the old row,
and otherwise row `cursorY` holds the first `cursorX` bytes of `row` and a new
row at `cursorY + 1` holds the rest; the rows in front and behind keep content
and order, `totalRows` grows by one, the cursor is at column 0 of row
`cursorY + 1`, which exists, and offsets and terminal size are unchanged. -/
theorem insertNewLine_spec (E : Editor) (row : Row)
    (hrow : rowAt E E.cursorY = some row) (h0 : 0 ≤ E.cursorX)
    (h1 : E.cursorX ≤ strlen row) :
    ∃ E1, insertNewLine E = some E1 ∧
      (E.cursorX = 0 → E1.textRows =
        E.textRows.take E.cursorY.toNat ++ [] :: E.textRows.drop E.cursorY.toNat) ∧
      (E.cursorX ≠ 0 → E1.textRows =
        E.textRows.take E.cursorY.toNat ++ row.take E.cursorX.toNat ::
          row.drop E.cursorX.toNat :: E.textRows.drop (E.cursorY + 1).toNat) ∧
      E1.totalRows = E.totalRows + 1 ∧
      E1.cursorY = E.cursorY + 1 ∧ E1.cursorX = 0 ∧
      (∃ r, rowAt E1 E1.cursorY = some r) ∧
      E1.rowOffset = E.rowOffset ∧ E1.colOffset = E.colOffset ∧
      E1.terminalRows = E.terminalRows ∧ E1.terminalCols = E.terminalCols := by
  obtain ⟨A, B, hrows, hlen⟩ := rowAt_split E _ row hrow
  obtain ⟨cx, cy, ro, co, tr, tc, rows⟩ := E
  simp only at hrows hlen h0 h1 ⊢
  subst hrows
  have e1 : List.take cy.toNat (A ++ row :: B) = A := take_app _ _ _ (by omega)
  have e2 : List.drop cy.toNat (A ++ row :: B) = row :: B := drop_app _ _ _ (by omega)
  have e3 : List.drop (cy + 1).toNat (A ++ row :: B) = B := by
    rw [show A ++ row :: B = (A ++ [row]) ++ B by simp]
    exact drop_app _ _ _ (by simp; omega)
  refine ⟨_, insertNewLine_app cx cy ro co tr tc A B row hlen h0 h1, ?_, ?_, ?_, rfl, rfl, ?_,
    rfl, rfl, rfl, rfl⟩
  · intro hx
    subst hx
    simp [e1, e2]
  · intro _
    simp only [e1, e3]
  · simp only [Editor.totalRows, List.length_append, List.length_cons]
    push_cast; omega
  · refine ⟨row.drop cx.toNat, ?_⟩
    have := rowAt_app 0 (cy + 1) ro co tr tc (A ++ [row.take cx.toNat]) B
      (row.drop cx.toNat) (by simp; omega)
    simpa using this

theorem insertNewLine_spec_witness :
    ∃ E1, insertNewLine ⟨1, 0, 0, 0, 24, 80, [[97, 98, 99], [100]]⟩ = some E1 ∧
      ((1 : Int) = 0 → E1.textRows = [] ++ [] :: [[97, 98, 99], [100]]) ∧
      ((1 : Int) ≠ 0 → E1.textRows = [] ++ [97] :: [98, 99] :: [[100]]) ∧
      E1.totalRows = 2 + 1 ∧ E1.cursorY = 0 + 1 ∧ E1.cursorX = 0 ∧
      (∃ r, rowAt E1 E1.cursorY = some r) ∧
      E1.rowOffset = 0 ∧ E1.colOffset = 0 ∧ E1.terminalRows = 24 ∧ E1.terminalCols = 80 :=
  insertNewLine_spec ⟨1, 0, 0, 0, 24, 80, [[97, 98, 99], [100]]⟩ [97, 98, 99] (by decide)
    (by decide) (by decide)

/-- C5, as the claim states it, fails for large offsets: with
`cursorY = rowOffset = 2147483647` and `terminalRows = 24`, all of them
non-negative, the sum `rowOffset + terminalRows` wraps around to a negative
`int`, the test `cursorY ≥ rowOffset + terminalRows` succeeds and `rowOffset`
becomes `2147483624`, where the claim leaves it unchanged. -/
theorem reconcileViewport_overflow_counterexample :
    (reconcileViewport ⟨0, 2147483647, 2147483647, 0, 24, 80, []⟩).rowOffset = 2147483624 ∧
    (reconcileViewport ⟨0, 2147483647, 2147483647, 0, 24, 80, []⟩).rowOffset ≠
      (if (2147483647 : Int) < 2147483647 then 2147483647
       else if (2147483647 : Int) ≥ 2147483647 + 24 then 2147483647 - 24 + 1
       else 2147483647) := by
  decide

/-- C5, amended (reconciliation postcondition): for `int` values (each at most
`INT_MAX`) with `terminalRows ≥ 1`, `terminalCols ≥ 1`, a non-negative cursor and
non-negative offsets, the scroll adjustment that ends `moveCursor` leaves
`0 ≤ cursorY - rowOffset < terminalRows` and `0 ≤ cursorX - colOffset < terminalCols`;
when `rowOffset + terminalRows ≤ INT_MAX`, `rowOffset` becomes `cursorY` if
`cursorY < rowOffset`, `cursorY - terminalRows + 1` if
`cursorY ≥ rowOffset + terminalRows`, and stays otherwise, and it is
non-negative; likewise `colOffset` when `colOffset + terminalCols ≤ INT_MAX`;
cursor, rows and terminal size are untouched; and on a buffer whose row count
and row lengths are at most `INT_MAX`, every state that `moveCursor` returns
has its cursor inside the window. -/
theorem reconcileViewport_spec (E : Editor) (hr : 1 ≤ E.terminalRows)
    (hc : 1 ≤ E.terminalCols) (hx : 0 ≤ E.cursorX) (hy : 0 ≤ E.cursorY)
    (hro : 0 ≤ E.rowOffset) (hco : 0 ≤ E.colOffset)
    (hmax : E.cursorX ≤ INT_MAX ∧ E.cursorY ≤ INT_MAX ∧ E.rowOffset ≤ INT_MAX ∧
      E.colOffset ≤ INT_MAX ∧ E.terminalRows ≤ INT_MAX ∧ E.terminalCols ≤ INT_MAX) :
    (0 ≤ (reconcileViewport E).cursorY - (reconcileViewport E).rowOffset ∧
      (reconcileViewport E).cursorY - (reconcileViewport E).rowOffset
        < (reconcileViewport E).terminalRows ∧
      0 ≤ (reconcileViewport E).cursorX - (reconcileViewport E).colOffset ∧
      (reconcileViewport E).cursorX - (reconcileViewport E).colOffset
        < (reconcileViewport E).terminalCols) ∧
    (E.rowOffset + E.terminalRows ≤ INT_MAX →
      (reconcileViewport E).rowOffset =
        (if E.cursorY < E.rowOffset then E.cursorY
         else if E.cursorY ≥ E.rowOffset + E.terminalRows then
           E.cursorY - E.terminalRows + 1
         else E.rowOffset) ∧
      0 ≤ (reconcileViewport E).rowOffset) ∧
    (E.colOffset + E.terminalCols ≤ INT_MAX →
      (reconcileViewport E).colOffset =
        (if E.cursorX < E.colOffset then E.cursorX
         else if E.cursorX ≥ E.colOffset + E.terminalCols then
           E.cursorX - E.terminalCols + 1
         else E.colOffset) ∧
      0 ≤ (reconcileViewport E).colOffset) ∧
    (reconcileViewport E).cursorX = E.cursorX ∧ (reconcileViewport E).cursorY = E.cursorY ∧
    (reconcileViewport E).textRows = E.textRows ∧
    (reconcileViewport E).terminalRows = E.terminalRows ∧
    (reconcileViewport E).terminalCols = E.terminalCols ∧
    (E.totalRows ≤ INT_MAX → (∀ r ∈ E.textRows, strlen r ≤ INT_MAX) →
      ∀ key E2, moveCursor key E = some E2 →
        0 ≤ E2.cursorY - E2.rowOffset ∧ E2.cursorY - E2.rowOffset < E2.terminalRows ∧
        0 ≤ E2.cursorX - E2.colOffset ∧ E2.cursorX - E2.colOffset < E2.terminalCols) := by
  obtain ⟨hxm, hym, hrom, hcom, hrm, hcm⟩ := hmax
  have hmin : INT_MIN ≤ 0 := by unfold INT_MIN; omega
  refine ⟨?_, ?_, ?_, ?_⟩
  · exact reconcileViewport_window E hr hc hrm hcm ⟨le_trans hmin hy, hym⟩
      ⟨le_trans hmin hx, hxm⟩ ⟨le_trans hmin hro, hrom⟩ ⟨le_trans hmin hco, hcom⟩
  · intro hsum
    obtain ⟨cx, cy, ro, co, tr, tc, rows⟩ := E
    rw [reconcileViewport_mk]
    exact scroll_exact cy ro tr hr ⟨hy, hym⟩ hro hsum
  · intro hsum
    obtain ⟨cx, cy, ro, co, tr, tc, rows⟩ := E
    rw [reconcileViewport_mk]
    exact scroll_exact cx co tc hc ⟨hx, hxm⟩ hco hsum
  · obtain ⟨fx, fy, ft, ftr, ftc⟩ := reconcileViewport_frame E
    refine ⟨fx, fy, ft, ftr, ftc, ?_⟩
    intro htot hrows key E2 h
    unfold moveCursor at h
    obtain ⟨E1, h1, rfl⟩ := Option.map_eq_some'.mp h
    obtain ⟨rx, ry, ero, eco, etr, etc⟩ :=
      cursorStep_range key E E1 ⟨hx, hxm⟩ ⟨hy, hym⟩ htot hrows h1
    exact reconcileViewport_window E1 (by rw [etr]; exact hr) (by rw [etc]; exact hc)
      (by rw [etr]; exact hrm) (by rw [etc]; exact hcm) ry rx
      (by rw [ero]; exact ⟨le_trans hmin hro, hrom⟩)
      (by rw [eco]; exact ⟨le_trans hmin hco, hcom⟩)

theorem reconcileViewport_spec_witness :
    (0 ≤ (reconcileViewport ⟨3, 30, 0, 10, 24, 80, [[97]]⟩).cursorY -
        (reconcileViewport ⟨3, 30, 0, 10, 24, 80, [[97]]⟩).rowOffset ∧
      (reconcileViewport ⟨3, 30, 0, 10, 24, 80, [[97]]⟩).cursorY -
        (reconcileViewport ⟨3, 30, 0, 10, 24, 80, [[97]]⟩).rowOffset < 24 ∧
      0 ≤ (reconcileViewport ⟨3, 30, 0, 10, 24, 80, [[97]]⟩).cursorX -
        (reconcileViewport ⟨3, 30, 0, 10, 24, 80, [[97]]⟩).colOffset ∧
      (reconcileViewport ⟨3, 30, 0, 10, 24, 80, [[97]]⟩).cursorX -
        (reconcileViewport ⟨3, 30, 0, 10, 24, 80, [[97]]⟩).colOffset < 80) ∧
    ((reconcileViewport ⟨3, 30, 0, 10, 24, 80, [[97]]⟩).rowOffset =
        (if (30 : Int) < 0 then 30 else if (30 : Int) ≥ 0 + 24 then 30 - 24 + 1 else 0) ∧
      0 ≤ (reconcileViewport ⟨3, 30, 0, 10, 24, 80, [[97]]⟩).rowOffset) ∧
    ((reconcileViewport ⟨3, 30, 0, 10, 24, 80, [[97]]⟩).colOffset =
        (if (3 : Int) < 10 then 3 else if (3 : Int) ≥ 10 + 80 then 3 - 80 + 1 else 10) ∧
      0 ≤ (reconcileViewport ⟨3, 30, 0, 10, 24, 80, [[97]]⟩).colOffset) ∧
    (∀ key E2, moveCursor key ⟨3, 30, 0, 10, 24, 80, [[97]]⟩ = some E2 →
      0 ≤ E2.cursorY - E2.rowOffset ∧ E2.cursorY - E2.rowOffset < E2.terminalRows ∧
      0 ≤ E2.cursorX - E2.colOffset ∧ E2.cursorX - E2.colOffset < E2.terminalCols) :=
  have h := reconcileViewport_spec ⟨3, 30, 0, 10, 24, 80, [[97]]⟩ (by decide) (by decide)
    (by decide) (by decide) (by decide) (by decide) (by decide)
  ⟨h.1, h.2.1 (by decide), h.2.2.1 (by decide),
    h.2.2.2.2.2.2.2.2 (by decide) (by decide)⟩

/-- C10 (`insertRow`): for `0 ≤ pos ≤ totalRows` the rows become the first `pos`
rows, then `s`, then the remaining rows, so that `totalRows` grows by exactly
one, the new row is at index `pos`, every row in front keeps its index and
every row from `pos` on has its index raised by one; for `pos < 0` or
`pos > totalRows` the state is unchanged; in every case cursor, offsets and
terminal size are unchanged. -/
theorem insertRow_spec (pos : Int) (s : Row) (E : Editor) :
    (0 ≤ pos ∧ pos ≤ E.totalRows →
      (insertRow pos s E).textRows =
        E.textRows.take pos.toNat ++ [s] ++ E.textRows.drop pos.toNat ∧
      (insertRow pos s E).totalRows = E.totalRows + 1 ∧
      rowAt (insertRow pos s E) pos = some s ∧
      (∀ i, i < pos → rowAt (insertRow pos s E) i = rowAt E i) ∧
      (∀ i, pos ≤ i → rowAt (insertRow pos s E) (i + 1) = rowAt E i)) ∧
    (pos < 0 ∨ pos > E.totalRows → insertRow pos s E = E) ∧
    (insertRow pos s E).cursorX = E.cursorX ∧ (insertRow pos s E).cursorY = E.cursorY ∧
    (insertRow pos s E).rowOffset = E.rowOffset ∧
    (insertRow pos s E).colOffset = E.colOffset ∧
    (insertRow pos s E).terminalRows = E.terminalRows ∧
    (insertRow pos s E).terminalCols = E.terminalCols := by
  obtain ⟨cx, cy, ro, co, tr, tc, rows⟩ := E
  refine ⟨?_, ?_, ?_⟩
  · rintro ⟨h0, h1⟩
    simp only [Editor.totalRows] at h1
    have hp : pos.toNat ≤ rows.length := by omega
    have hA : ((rows.take pos.toNat).length : Int) = pos := by
      rw [List.length_take, Nat.min_eq_left hp]; omega
    have hsplit : rows = rows.take pos.toNat ++ rows.drop pos.toNat :=
      (List.take_append_drop _ _).symm
    have hins := insertRow_app pos s cx cy ro co tr tc (rows.take pos.toNat)
      (rows.drop pos.toNat) hA
    rw [← hsplit] at hins
    generalize hAd : rows.take pos.toNat = A at hA hsplit hins
    generalize hBd : rows.drop pos.toNat = B at hsplit hins
    rw [hins]
    subst hsplit
    refine ⟨by simp, ?_, ?_, ?_, ?_⟩
    · simp only [Editor.totalRows, List.length_append, List.length_cons]
      push_cast; omega
    · exact rowAt_app cx pos ro co tr tc A B s hA
    · intro i hi
      unfold rowAt
      by_cases hneg : i < 0
      · simp only [hneg, if_true]
      · simp only [hneg, if_false]
        have hlt : i.toNat < A.length := by omega
        rw [List.getElem?_append_left hlt, List.getElem?_append_left hlt]
    · intro i hi
      unfold rowAt
      have hge : A.length ≤ i.toNat := by omega
      have hge1 : A.length ≤ (i + 1).toNat := by omega
      have e : (i + 1).toNat - A.length = (i.toNat - A.length) + 1 := by omega
      simp only [show ¬ i < 0 by omega, show ¬ i + 1 < 0 by omega, if_false]
      rw [List.getElem?_append_right hge, List.getElem?_append_right hge1, e,
        List.getElem?_cons_succ]
  · intro h
    simp only [insertRow, h, if_true]
  · unfold insertRow
    split_ifs <;> exact ⟨rfl, rfl, rfl, rfl, rfl, rfl⟩

theorem insertRow_spec_witness :
    (insertRow 1 [120] ⟨0, 0, 0, 0, 24, 80, [[97], [98]]⟩).textRows = [[97], [120], [98]] ∧
    insertRow 3 [120] ⟨0, 0, 0, 0, 24, 80, [[97], [98]]⟩ = ⟨0, 0, 0, 0, 24, 80, [[97], [98]]⟩ :=
  ⟨((insertRow_spec 1 [120] ⟨0, 0, 0, 0, 24, 80, [[97], [98]]⟩).1 (by decide)).1,
   (insertRow_spec 3 [120] ⟨0, 0, 0, 0, 24, 80, [[97], [98]]⟩).2.1 (by decide)⟩

/-- C9 (`insertChar` against its reference definition), for a character `c`
other than NUL, whose byte is `c % 256`.  With the cursor on an existing row
`p ++ s`, `|p| = cursorX`, that row becomes `p ++ [c] ++ s` and no other row
changes; the column becomes `cursorX + 1`, unless `cursorX + 1 ≥ terminalCols`,
in which case the cursor goes to column 0 of row `cursorY + 1` and one empty row
is appended exactly when `cursorY` was the last row.  With the cursor at
`cursorY = totalRows`, column 0, an empty row is appended first and receives
`c` in the same way. -/
theorem insertChar_spec (c : Int) (E : Editor) (hc : c % 256 ≠ 0) :
    (∀ p s : Row, rowAt E E.cursorY = some (p ++ s) → strlen p = E.cursorX →
      insertChar c E = some
        (if E.cursorX + 1 ≥ E.terminalCols then
          { E with
            textRows :=
              if E.cursorY = E.totalRows - 1 then
                E.textRows.set E.cursorY.toNat (p ++ [c % 256] ++ s) ++ [[]]
              else E.textRows.set E.cursorY.toNat (p ++ [c % 256] ++ s)
            cursorX := 0
            cursorY := E.cursorY + 1 }
        else
          { E with
            textRows := E.textRows.set E.cursorY.toNat (p ++ [c % 256] ++ s)
            cursorX := E.cursorX + 1 })) ∧
    (E.cursorY = E.totalRows → E.cursorX = 0 →
      insertChar c E = some
        (if 1 ≥ E.terminalCols then
          { E with
            textRows := E.textRows ++ [[c % 256], []]
            cursorX := 0
            cursorY := E.cursorY + 1 }
        else
          { E with
            textRows := E.textRows ++ [[c % 256]]
            cursorX := 1 })) := by
  constructor
  · intro p s hrow hp
    obtain ⟨A, B, hrows, hlen⟩ := rowAt_split E _ _ hrow
    obtain ⟨cx, cy, ro, co, tr, tc, rows⟩ := E
    simp only at hrows hlen hp ⊢
    subst hrows
    have hpl : cx.toNat = p.length := by unfold strlen at hp; omega
    have hput : putByte (p ++ s) cx.toNat (c % 256) = p ++ [c % 256] ++ s := by
      simp [putByte, hc, hpl]
    rw [insertChar_app c cx cy ro co tr tc A B (p ++ s) hlen (by unfold strlen at hp; omega)
      (by unfold strlen at hp ⊢; simp only [List.length_append]; push_cast; omega), hput,
      set_app A B _ _ _ (by omega)]
    by_cases hw : cx + 1 ≥ tc
    · simp only [hw, if_true]
      by_cases hB : B = []
      · subst hB
        have hl : cy = Editor.totalRows ⟨cx, cy, ro, co, tr, tc, A ++ [p ++ s]⟩ - 1 := by
          simp only [Editor.totalRows, List.length_append, List.length_cons, List.length_nil]
          push_cast; omega
        rw [if_pos hl]
        simp
      · have hl : ¬ cy = Editor.totalRows ⟨cx, cy, ro, co, tr, tc, A ++ (p ++ s) :: B⟩ - 1 := by
          have : 0 < B.length := List.length_pos.mpr hB
          simp only [Editor.totalRows, List.length_append, List.length_cons]
          push_cast; omega
        rw [if_neg hl]
        simp only [hB, if_false]
    · simp only [hw, if_false]
  · intro hy hx
    obtain ⟨cx, cy, ro, co, tr, tc, rows⟩ := E
    simp only [Editor.totalRows] at hy hx ⊢
    subst hx
    have hput : putByte [] (0 : Int).toNat (c % 256) = [c % 256] := by
      simp [putByte, hc]
    rw [insertChar_append c 0 cy ro co tr tc rows hy.symm,
      insertChar_app c 0 cy ro co tr tc rows [] [] hy.symm (le_refl 0)
        (by simp [strlen]), hput]
    by_cases hw : (0 : Int) + 1 ≥ tc
    · have hw1 : (1 : Int) ≥ tc := by omega
      simp only [hw, hw1, if_true]
    · have hw1 : ¬ (1 : Int) ≥ tc := by omega
      simp only [hw, hw1, if_false, zero_add]

theorem insertChar_spec_witness :
    insertChar 120 ⟨1, 0, 0, 0, 24, 80, [[97, 98]]⟩ =
      some ⟨2, 0, 0, 0, 24, 80, [[97, 120, 98]]⟩ ∧
    insertChar 120 ⟨0, 1, 0, 0, 24, 80, [[97, 98]]⟩ =
      some ⟨1, 1, 0, 0, 24, 80, [[97, 98], [120]]⟩ :=
  ⟨(insertChar_spec 120 ⟨1, 0, 0, 0, 24, 80, [[97, 98]]⟩ (by decide)).1 [97] [98] (by decide)
     (by decide),
   (insertChar_spec 120 ⟨0, 1, 0, 0, 24, 80, [[97, 98]]⟩ (by decide)).2 (by decide)
     (by decide)⟩

set_option maxRecDepth 20000 in
/-- C3, at the input where the code departs from it: on a 24 by 80 terminal,
24 presses of Enter from the initial state return a state with `cursorY = 24`
and `rowOffset = 0`, so the screen row `cursorY - rowOffset` is 24, outside
`[0, terminalRows)`: `insertNewLine` moves the cursor without the scroll
adjustment that `moveCursor` makes. -/
theorem processKeypress_enter_leaves_window :
    runKeys (List.replicate 24 ENTER) (initializeEditor 24 80) =
        .running ⟨0, 24, 0, 0, 24, 80, List.replicate 24 []⟩ ∧
      ¬ ((⟨0, 24, 0, 0, 24, 80, List.replicate 24 []⟩ : Editor).cursorY -
          (⟨0, 24, 0, 0, 24, 80, List.replicate 24 []⟩ : Editor).rowOffset <
        (⟨0, 24, 0, 0, 24, 80, List.replicate 24 []⟩ : Editor).terminalRows) := by
  decide

/-- C4, at the input where the code departs from it: in the initial state the
buffer is empty and `textRows[cursorY]` is `textRows[0]` with `totalRows = 0`, yet
`moveCursor(ARROW_RIGHT)` reads it; the same happens after one Enter, when
`cursorY = totalRows = 1`. -/
theorem processKeypress_arrow_right_out_of_range :
    (initializeEditor 24 80).totalRows = 0 ∧
    rowAt (initializeEditor 24 80) (initializeEditor 24 80).cursorY = none ∧
    processKeypress ARROW_RIGHT (initializeEditor 24 80) = .fault ∧
    runKeys [ENTER] (initializeEditor 24 80) = .running ⟨0, 1, 0, 0, 24, 80, [[]]⟩ ∧
    runKeys [ENTER, ARROW_RIGHT] (initializeEditor 24 80) = .fault := by
  decide

/-- C6, at the input where the code departs from it: the empty buffer with the
cursor at row 0, column 0 meets the bounds (`0 ≤ cursorY < max(totalRows, 1)`),
and `moveCursor(ARROW_RIGHT)` returns no state there, because it reads
`textRows[0]` of a buffer without rows. -/
theorem moveCursors_arrow_right_empty_buffer :
    0 ≤ (initializeEditor 24 80).cursorY ∧
    (initializeEditor 24 80).cursorY < max (initializeEditor 24 80).totalRows 1 ∧
    (initializeEditor 24 80).cursorX = 0 ∧
    moveCursors [ARROW_RIGHT] (initializeEditor 24 80) = none := by
  decide

/-! ## Cursor movement against its reference definition -/

theorem rowAt_none (E : Editor) (i : Int) (h : i < 0 ∨ E.totalRows ≤ i) :
    rowAt E i = none := by
  cases hr : rowAt E i with
  | none => rfl
  | some r =>
    have := (rowAt_isSome_iff E i).mp ⟨r, hr⟩
    omega

theorem rowLen_of_rowAt (E : Editor) (i : Int) (r : Row) (h : rowAt E i = some r) :
    rowLen E i = strlen r := by
  simp only [rowLen, h]

theorem cursorStep_ref (key : Int) (E : Editor) (row : Row)
    (hrow : rowAt E E.cursorY = some row) (h0 : 0 ≤ E.cursorX) :
    ∃ E1, cursorStep key E = some E1 ∧ (E1.cursorX, E1.cursorY) = moveCursorRef key E ∧
      E1.textRows = E.textRows := by
  have hy := (rowAt_isSome_iff E E.cursorY).mp ⟨row, hrow⟩
  unfold cursorStep moveCursorRef
  by_cases hL : key = ARROW_LEFT
  · simp only [hL, if_true]
    by_cases hx : E.cursorX > 0
    · simp only [hx, if_true]
      exact ⟨_, rfl, rfl, rfl⟩
    · simp only [hx, if_false]
      by_cases hy0 : E.cursorY > 0
      · obtain ⟨r, hr⟩ := (rowAt_isSome_iff E (E.cursorY - 1)).mpr ⟨by omega, by omega⟩
        simp only [hy0, if_true, hr, rowLen_of_rowAt E _ r hr]
        exact ⟨_, rfl, rfl, rfl⟩
      · simp only [hy0, if_false]
        exact ⟨E, rfl, rfl, rfl⟩
  · simp only [hL, if_false]
    by_cases hR : key = ARROW_RIGHT
    · simp only [hR, if_true, hrow, rowLen_of_rowAt E _ row hrow]
      by_cases hlt : E.cursorX < strlen row
      · have hb : intLtSize E.cursorX (strlen row) = true := by simp [intLtSize, h0, hlt]
        simp only [hb, hlt, if_true]
        exact ⟨_, rfl, rfl, rfl⟩
      · have hb : ¬ intLtSize E.cursorX (strlen row) = true := by simp [intLtSize, hlt]
        simp only [hb, hlt, if_false]
        by_cases hn : E.cursorY < E.totalRows - 1
        · simp only [hn, if_true]
          exact ⟨_, rfl, rfl, rfl⟩
        · simp only [hn, if_false]
          exact ⟨E, rfl, rfl, rfl⟩
    · simp only [hR, if_false]
      by_cases hU : key = ARROW_UP
      · simp only [hU, if_true]
        by_cases hy0 : E.cursorY > 0
        · obtain ⟨r, hr⟩ := (rowAt_isSome_iff E (E.cursorY - 1)).mpr ⟨by omega, by omega⟩
          simp only [hy0, if_true, hr]
          by_cases hgt : E.cursorX > strlen r
          · have hb : intGtSize E.cursorX (strlen r) = true := by simp [intGtSize, hgt]
            simp only [hb, if_true]
            exact ⟨_, rfl, by simp only [min_eq_right (le_of_lt hgt)], rfl⟩
          · have hb : ¬ intGtSize E.cursorX (strlen r) = true := by
              simp only [intGtSize, decide_eq_true_eq]; omega
            simp only [hb, if_false]
            exact ⟨_, rfl, by simp only [min_eq_left (not_lt.mp hgt)], rfl⟩
        · have hn := rowAt_none E (E.cursorY - 1) (Or.inl (by omega))
          simp only [hy0, if_false, hn]
          exact ⟨E, rfl, rfl, rfl⟩
      · simp only [hU, if_false]
        by_cases hD : key = ARROW_DOWN
        · simp only [hD, if_true]
          by_cases hn : E.cursorY < E.totalRows - 1
          · obtain ⟨r, hr⟩ := (rowAt_isSome_iff E (E.cursorY + 1)).mpr ⟨by omega, by omega⟩
            simp only [hn, if_true, hr]
            by_cases hgt : E.cursorX > strlen r
            · have hb : intGtSize E.cursorX (strlen r) = true := by simp [intGtSize, hgt]
              simp only [hb, if_true]
              exact ⟨_, rfl, by simp only [min_eq_right (le_of_lt hgt)], rfl⟩
            · have hb : ¬ intGtSize E.cursorX (strlen r) = true := by
                simp only [intGtSize, decide_eq_true_eq]; omega
              simp only [hb, if_false]
              exact ⟨_, rfl, by simp only [min_eq_left (not_lt.mp hgt)], rfl⟩
          · have hnone := rowAt_none E (E.cursorY + 1) (Or.inr (by omega))
            simp only [hn, if_false, hnone]
            exact ⟨E, rfl, rfl, rfl⟩
        · simp only [hD, if_false]
          exact ⟨E, rfl, rfl, rfl⟩

/-- C12 (Arrow-Right at the end of the last line): with the cursor on the last
row (`cursorY = totalRows - 1` and `rowAt E E.cursorY = some row`, which makes
`totalRows ≥ 1`) and `cursorX` equal to its length, `moveCursor(ARROW_RIGHT)` returns, so no read
is out of range, and `cursorX`, `cursorY`, the rows and `totalRows` are unchanged. -/
theorem moveCursor_right_at_end (E : Editor) (row : Row)
    (hy : E.cursorY = E.totalRows - 1) (hrow : rowAt E E.cursorY = some row)
    (hx : E.cursorX = strlen row) :
    ∃ E1, moveCursor ARROW_RIGHT E = some E1 ∧ E1.cursorX = E.cursorX ∧
      E1.cursorY = E.cursorY ∧ E1.textRows = E.textRows ∧ E1.totalRows = E.totalRows := by
  have hb : ¬ intLtSize E.cursorX (strlen row) = true := by
    simp only [intLtSize, decide_eq_true_eq]; omega
  have hl : ¬ E.cursorY < E.totalRows - 1 := by omega
  have hs : cursorStep ARROW_RIGHT E = some E := by
    simp only [cursorStep, show ARROW_RIGHT ≠ ARROW_LEFT by decide, if_false, if_true, hrow,
      hb, hl, Bool.false_eq_true]
  obtain ⟨fx, fy, ft, _, _⟩ := reconcileViewport_frame E
  exact ⟨reconcileViewport E, by simp [moveCursor, hs], fx, fy, ft,
    by simp only [Editor.totalRows, ft]⟩

theorem moveCursor_right_at_end_witness :
    ∃ E1, moveCursor ARROW_RIGHT ⟨2, 1, 0, 0, 24, 80, [[97], [98, 99]]⟩ = some E1 ∧
      E1.cursorX = 2 ∧ E1.cursorY = 1 ∧ E1.textRows = [[97], [98, 99]] ∧
      E1.totalRows = (⟨2, 1, 0, 0, 24, 80, [[97], [98, 99]]⟩ : Editor).totalRows :=
  moveCursor_right_at_end ⟨2, 1, 0, 0, 24, 80, [[97], [98, 99]]⟩ [98, 99] (by decide)
    (by decide) (by decide)

/-- C13 (vertical moves at the boundary): in every state with `cursorY = 0`,
`moveCursor(ARROW_UP)` returns with `cursorY = 0` and with `cursorX` and the rows
unchanged; in every state with `totalRows ≥ 1` and `cursorY = totalRows - 1`,
`moveCursor(ARROW_DOWN)` returns with `cursorY = totalRows - 1` and with
`cursorX` and the rows unchanged. -/
theorem moveCursor_vertical_boundary (E : Editor) :
    (E.cursorY = 0 →
      ∃ E1, moveCursor ARROW_UP E = some E1 ∧ E1.cursorY = 0 ∧ E1.cursorX = E.cursorX ∧
        E1.textRows = E.textRows) ∧
    (1 ≤ E.totalRows → E.cursorY = E.totalRows - 1 →
      ∃ E1, moveCursor ARROW_DOWN E = some E1 ∧ E1.cursorY = E.totalRows - 1 ∧
        E1.cursorX = E.cursorX ∧ E1.textRows = E.textRows) := by
  obtain ⟨fx, fy, ft, _, _⟩ := reconcileViewport_frame E
  constructor
  · intro hy
    have hg : ¬ E.cursorY > 0 := by omega
    have hs : cursorStep ARROW_UP E = some E := by
      simp only [cursorStep, show ARROW_UP ≠ ARROW_LEFT by decide,
        show ARROW_UP ≠ ARROW_RIGHT by decide, if_false, if_true, hg]
    exact ⟨reconcileViewport E, by simp [moveCursor, hs], by rw [fy, hy], fx, ft⟩
  · intro _ hy
    have hg : ¬ E.cursorY < E.totalRows - 1 := by omega
    have hs : cursorStep ARROW_DOWN E = some E := by
      simp only [cursorStep, show ARROW_DOWN ≠ ARROW_LEFT by decide,
        show ARROW_DOWN ≠ ARROW_RIGHT by decide, show ARROW_DOWN ≠ ARROW_UP by decide,
        if_false, if_true, hg]
    exact ⟨reconcileViewport E, by simp [moveCursor, hs], by rw [fy, hy], fx, ft⟩

theorem moveCursor_vertical_boundary_witness :
    (∃ E1, moveCursor ARROW_UP ⟨1, 0, 0, 0, 24, 80, [[97], [98, 99]]⟩ = some E1 ∧
      E1.cursorY = 0 ∧ E1.cursorX = 1 ∧ E1.textRows = [[97], [98, 99]]) ∧
    (∃ E1, moveCursor ARROW_DOWN ⟨2, 1, 0, 0, 24, 80, [[97], [98, 99]]⟩ = some E1 ∧
      E1.cursorY = (⟨2, 1, 0, 0, 24, 80, [[97], [98, 99]]⟩ : Editor).totalRows - 1 ∧
      E1.cursorX = 2 ∧ E1.textRows = [[97], [98, 99]]) :=
  ⟨(moveCursor_vertical_boundary ⟨1, 0, 0, 0, 24, 80, [[97], [98, 99]]⟩).1 (by decide),
   (moveCursor_vertical_boundary ⟨2, 1, 0, 0, 24, 80, [[97], [98, 99]]⟩).2 (by decide)
     (by decide)⟩

/-- C20 (Enter on the empty buffer): from the initial state, whatever the
terminal size, `insertNewLine` returns the buffer of exactly one empty row with
the cursor at row 1, column 0, so that `cursorY = totalRows = 1`; `deleteChar`
on that state returns it unchanged, and the empty buffer is not restored. -/
theorem insertNewLine_on_empty_buffer (rows cols : Int) :
    insertNewLine (initializeEditor rows cols) = some ⟨0, 1, 0, 0, rows, cols, [[]]⟩ ∧
    (⟨0, 1, 0, 0, rows, cols, [[]]⟩ : Editor).totalRows = 1 ∧
    (⟨0, 1, 0, 0, rows, cols, [[]]⟩ : Editor).cursorY =
      (⟨0, 1, 0, 0, rows, cols, [[]]⟩ : Editor).totalRows ∧
    deleteChar ⟨0, 1, 0, 0, rows, cols, [[]]⟩ = some ⟨0, 1, 0, 0, rows, cols, [[]]⟩ ∧
    (⟨0, 1, 0, 0, rows, cols, [[]]⟩ : Editor) ≠ initializeEditor rows cols := by
  refine ⟨?_, rfl, rfl, ?_, ?_⟩
  · have h := insertRow_app 0 [] 0 0 0 0 rows cols [] [] rfl
    simp only [List.nil_append] at h
    simp only [insertNewLine, initializeEditor, if_true, h]
    rfl
  · exact deleteChar_guard _ (Or.inl (by simp [Editor.totalRows]))
  · intro h
    have := congrArg Editor.cursorY h
    simp [initializeEditor] at this

/-! ## Saving -/

/-- The loop of `saveFile` started at row `i` with as many rounds as rows are
left reads inside the buffer only and writes each remaining row followed by
one newline. -/
theorem saveLoop_eq (E : Editor) :
    ∀ (n : Nat) (i : Int), 0 ≤ i → i + n = E.totalRows →
      saveLoop E i n =
        some ((E.textRows.drop i.toNat).map (fun r => r ++ [10])).flatten := by
  intro n
  induction n with
  | zero =>
    intro i h0 hi
    have : E.textRows.length ≤ i.toNat := by unfold Editor.totalRows at hi; omega
    simp [saveLoop, List.drop_eq_nil_of_le this]
  | succ n ih =>
    intro i h0 hi
    have hlt : i.toNat < E.textRows.length := by
      unfold Editor.totalRows at hi; push_cast at hi; omega
    have hr : rowAt E i = some (E.textRows[i.toNat]) := by
      unfold rowAt
      rw [if_neg (by omega), List.getElem?_eq_getElem hlt]
    have hd : E.textRows.drop i.toNat = E.textRows[i.toNat] :: E.textRows.drop (i + 1).toNat := by
      rw [show (i + 1).toNat = i.toNat + 1 by omega]
      exact List.drop_eq_getElem_cons hlt
    have hrest := ih (i + 1) (by omega) (by push_cast at hi; omega)
    simp only [saveLoop, hr, hrest, hd, List.map_cons, List.flatten_cons, List.append_assoc,
      List.singleton_append]

/-- C14 (save serialization): when the file opens, `saveFile` returns, the bytes
it writes are the rows in order, each followed by exactly one newline byte (10),
and nothing else; for the rows "abc", "", "de" these are the bytes of
"abc\n\nde\n", for the empty buffer there are none; and whether or not the file
opens, the editor state (rows, cursor, offsets) afterwards is the one before. -/
theorem saveFile_spec (E : Editor) :
    saveFile true E = some (E, some (E.textRows.map (fun r => r ++ [10])).flatten) ∧
    saveFile false E = some (E, none) ∧
    (∀ cx cy ro co tr tc : Int,
      saveFile true ⟨cx, cy, ro, co, tr, tc, [[97, 98, 99], [], [100, 101]]⟩ =
        some (⟨cx, cy, ro, co, tr, tc, [[97, 98, 99], [], [100, 101]]⟩,
          some [97, 98, 99, 10, 10, 100, 101, 10])) ∧
    (∀ cx cy ro co tr tc : Int,
      saveFile true ⟨cx, cy, ro, co, tr, tc, []⟩ = some (⟨cx, cy, ro, co, tr, tc, []⟩, some [])) := by
  have key : ∀ F : Editor,
      saveFile true F = some (F, some (F.textRows.map (fun r => r ++ [10])).flatten) := by
    intro F
    have h := saveLoop_eq F F.totalRows.toNat 0 (le_refl 0)
      (by unfold Editor.totalRows; omega)
    simp only [saveFile, if_true, h]
    rfl
  refine ⟨key E, by simp [saveFile], ?_, ?_⟩
  · intro cx cy ro co tr tc
    rw [key]; rfl
  · intro cx cy ro co tr tc
    rw [key]; rfl

/-! ## Key decoding -/

/-- C16, as the claim states it, fails where `char` is signed: the byte 200 is
returned as the key code -56, not 200. -/
theorem readKeyInput_high_byte_counterexample :
    readKeyInput true [200] = some (-56, []) ∧ readKeyInput true [200] ≠ some (200, []) := by
  decide

/-- C16, amended: `ESC [ A`, `ESC [ B`, `ESC [ C`, `ESC [ D` decode to
`ARROW_UP` (1002), `ARROW_DOWN` (1003), `ARROW_RIGHT` (1001), `ARROW_LEFT` (1000);
ESC followed by any other two bytes decodes to 27 and consumes all three bytes;
every byte `b` in 0..127 other than ESC is returned as the key code `b`,
consuming exactly one byte; a byte `b` in 128..255 is returned, consuming one
byte, as `b` where `char` is unsigned and as `b - 256` where `char` is signed. -/
theorem readKeyInput_spec (charSigned : Bool) (rest : List Int) :
    readKeyInput charSigned (27 :: 91 :: 65 :: rest) = some (1002, rest) ∧
    readKeyInput charSigned (27 :: 91 :: 66 :: rest) = some (1003, rest) ∧
    readKeyInput charSigned (27 :: 91 :: 67 :: rest) = some (1001, rest) ∧
    readKeyInput charSigned (27 :: 91 :: 68 :: rest) = some (1000, rest) ∧
    (∀ s0 s1 : Int, ¬ (s0 = 91 ∧ (s1 = 65 ∨ s1 = 66 ∨ s1 = 67 ∨ s1 = 68)) →
      readKeyInput charSigned (27 :: s0 :: s1 :: rest) = some (27, rest)) ∧
    (∀ b : Int, b ≠ 27 → 0 ≤ b → b < 128 →
      readKeyInput charSigned (b :: rest) = some (b, rest)) ∧
    (∀ b : Int, 128 ≤ b → b ≤ 255 →
      readKeyInput false (b :: rest) = some (b, rest) ∧
      readKeyInput true (b :: rest) = some (b - 256, rest)) := by
  refine ⟨by simp [readKeyInput, ARROW_UP], by simp [readKeyInput, ARROW_DOWN],
    by simp [readKeyInput, ARROW_RIGHT], by simp [readKeyInput, ARROW_LEFT], ?_, ?_, ?_⟩
  · intro s0 s1 h
    by_cases h0 : s0 = 91
    · have h1 : ¬ (s1 = 65 ∨ s1 = 66 ∨ s1 = 67 ∨ s1 = 68) := fun h2 => h ⟨h0, h2⟩
      simp only [not_or] at h1
      simp [readKeyInput, h0, h1.1, h1.2.1, h1.2.2.1, h1.2.2.2]
    · simp [readKeyInput, h0]
  · intro b hb h0 h1
    have : ¬ ((charSigned = true) ∧ b ≥ 128) := by omega
    simp [readKeyInput, hb, charToInt, this]
  · intro b h0 h1
    have hb : b ≠ 27 := by omega
    constructor
    · simp [readKeyInput, hb, charToInt]
    · simp [readKeyInput, hb, charToInt, h0]

theorem readKeyInput_spec_witness :
    readKeyInput true (27 :: 79 :: 80 :: [97]) = some (27, [97]) ∧
    readKeyInput true (97 :: [98]) = some (97, [98]) ∧
    readKeyInput false (200 :: [98]) = some (200, [98]) ∧
    readKeyInput true (200 :: [98]) = some (200 - 256, [98]) :=
  ⟨(readKeyInput_spec true [97]).2.2.2.2.1 79 80 (by decide),
   (readKeyInput_spec true [98]).2.2.2.2.2.1 97 (by decide) (by decide) (by decide),
   ((readKeyInput_spec true [98]).2.2.2.2.2.2 200 (by decide) (by decide)).1,
   ((readKeyInput_spec true [98]).2.2.2.2.2.2 200 (by decide) (by decide)).2⟩

/-! ## Rendering -/

set_option maxRecDepth 100000 in
/-- C15, at inputs where the code departs from it.  Ten presses of Enter, Up,
the characters `a` and `b` and Left on a 24 by 80 terminal leave ten rows with
the cursor at column 1 of the last row "ab"; `refreshScreen` draws that row
from screen column 2 on, so its byte 1 stands in column 3, and moves the
hardware cursor to column `1 + countDigits(11) + 1 = 4`.  Eighty characters,
Backspace, Left and Right leave `cursorX = 80`, `colOffset = 1` on one row;
`refreshScreen` moves the hardware cursor to column `80 + countDigits(2) + 1 = 82`,
with no `colOffset` subtracted. -/
theorem refreshScreen_cursor_column :
    runKeys (List.replicate 10 ENTER ++ [ARROW_UP, 97, 98, ARROW_LEFT])
        (initializeEditor 24 80) =
      .running ⟨1, 9, 0, 0, 24, 80, List.replicate 9 [] ++ [[97, 98]]⟩ ∧
    (refreshScreen ⟨1, 9, 0, 0, 24, 80, List.replicate 9 [] ++ [[97, 98]]⟩).map
        Screen.cursor = some (9, 4) ∧
    (refreshScreen ⟨1, 9, 0, 0, 24, 80, List.replicate 9 [] ++ [[97, 98]]⟩).map
        (fun S => decide (Draw.text 9 2 [97, 98] ∈ S.draws)) = some true ∧
    runKeys (List.replicate 80 97 ++ [BACKSPACE, ARROW_LEFT, ARROW_RIGHT])
        (initializeEditor 24 80) =
      .running ⟨80, 0, 0, 1, 24, 80, [List.replicate 80 97]⟩ ∧
    (refreshScreen ⟨80, 0, 0, 1, 24, 80, [List.replicate 80 97]⟩).map
        Screen.cursor = some (0, 82) := by
  refine ⟨by decide, by decide, by decide, by decide, by decide⟩

/-! ## Hard wrap -/

theorem flatten_length_full (cols : Int) (A : List Row) (hA : ∀ r ∈ A, strlen r = cols) :
    ((A.flatten.length : Nat) : Int) = (A.length : Int) * cols := by
  induction A with
  | nil => simp
  | cons r A ih =>
    have hr : (r.length : Int) = cols := hA r (List.mem_cons_self _ _)
    have := ih (fun q hq => hA q (List.mem_cons_of_mem _ hq))
    simp only [List.flatten_cons, List.length_append, List.length_cons]
    push_cast
    rw [this, hr]
    ring

/-- C19 (hard wrap keeps the content): from the initial state with
`terminalCols ≥ 1`, the calls `insertChar(c1)`, ..., `insertChar(cn)`, `n ≥ 1`, for
characters other than NUL all return; afterwards the rows concatenated are the
bytes of `c1..cn`, every row has at most `terminalCols` bytes, every row except
the last has exactly `terminalCols`, `totalRows = n / terminalCols + 1`, and the
cursor is at the end of the last row: `cursorY = totalRows - 1`,
`cursorX = n mod terminalCols`, which is the length of that row. -/
theorem insertChars_hard_wrap (rows cols : Int) (cs : List Int) (hcols : 1 ≤ cols)
    (hn : cs ≠ []) (hcs : ∀ c ∈ cs, c % 256 ≠ 0) :
    ∃ E, insertChars cs (initializeEditor rows cols) = some E ∧
      E.textRows.flatten = cs.map (fun c => c % 256) ∧
      (∀ r ∈ E.textRows, strlen r ≤ cols) ∧
      (∀ r ∈ E.textRows.dropLast, strlen r = cols) ∧
      E.totalRows = (cs.length : Int) / cols + 1 ∧
      E.cursorY = E.totalRows - 1 ∧
      E.cursorX = (cs.length : Int) % cols ∧
      (∃ last, E.textRows.getLast? = some last ∧ E.cursorX = strlen last) := by
  cases cs with
  | nil => exact absurd rfl hn
  | cons c cs =>
    obtain ⟨A1, last1, h1, h2, h3, h4⟩ := insertChars_wrap cols (c :: cs) 0 0 0 0 rows [] []
      hcs rfl rfl (by simp only [strlen, List.length_nil]; push_cast; omega)
      (fun r hr => absurd hr (List.not_mem_nil r))
    have hstart : insertChars (c :: cs) (initializeEditor rows cols) =
        insertChars (c :: cs) ⟨0, 0, 0, 0, rows, cols, [] ++ [[]]⟩ := by
      simp only [insertChars, initializeEditor]
      rw [insertChar_append c 0 0 0 0 rows cols [] rfl]
    rw [hstart, h1]
    simp only [List.nil_append, List.flatten_cons, List.flatten_nil, List.append_nil] at h4
    have hl0 : 0 ≤ strlen last1 := by unfold strlen; omega
    have hlen : ((c :: cs).length : Int) = (A1.length : Int) * cols + strlen last1 := by
      have e := congrArg List.length h4
      simp only [List.flatten_append, List.flatten_cons, List.flatten_nil, List.append_nil,
        List.length_append, List.length_map] at e
      have f := flatten_length_full cols A1 h3
      unfold strlen
      omega
    have hdiv : ((c :: cs).length : Int) / cols = (A1.length : Int) := by
      rw [hlen, add_comm, Int.add_mul_ediv_right _ _ (by omega),
        Int.ediv_eq_zero_of_lt hl0 h2]
      omega
    have hmod : ((c :: cs).length : Int) % cols = strlen last1 := by
      rw [hlen, add_comm, Int.add_mul_emod_self, Int.emod_eq_of_lt hl0 h2]
    refine ⟨_, rfl, h4, ?_, ?_, ?_, ?_, ?_, ?_⟩
    · intro r hr
      rcases List.mem_append.mp hr with h | h
      · exact le_of_eq (h3 r h)
      · rw [List.mem_singleton.mp h]; exact le_of_lt h2
    · intro r hr
      rw [List.dropLast_concat] at hr
      exact h3 r hr
    · rw [hdiv]
      simp only [Editor.totalRows, List.length_append, List.length_singleton]
      push_cast; rfl
    · simp only [Editor.totalRows, List.length_append, List.length_singleton]
      push_cast; omega
    · exact hmod.symm
    · exact ⟨last1, by simp, rfl⟩

theorem insertChars_hard_wrap_witness :
    ∃ E, insertChars [104, 101, 108, 108, 111] (initializeEditor 24 4) = some E ∧
      E.textRows.flatten = [104, 101, 108, 108, 111].map (fun c => c % 256) ∧
      (∀ r ∈ E.textRows, strlen r ≤ 4) ∧
      (∀ r ∈ E.textRows.dropLast, strlen r = 4) ∧
      E.totalRows = (([104, 101, 108, 108, 111] : List Int).length : Int) / 4 + 1 ∧
      E.cursorY = E.totalRows - 1 ∧
      E.cursorX = (([104, 101, 108, 108, 111] : List Int).length : Int) % 4 ∧
      (∃ last, E.textRows.getLast? = some last ∧ E.cursorX = strlen last) :=
  insertChars_hard_wrap 24 4 [104, 101, 108, 108, 111] (by decide) (by decide) (by decide)

/-! ## No line terminator in a row -/

theorem cursorStep_rows (key : Int) (E E1 : Editor) (h : cursorStep key E = some E1) :
    E1.textRows = E.textRows := by
  unfold cursorStep at h
  split_ifs at h <;> first
    | (cases h; rfl)
    | (split at h <;> first
        | (cases h; done)
        | (split_ifs at h <;> cases h <;> rfl)
        | (cases h; rfl))

theorem moveCursor_rows (key : Int) (E E1 : Editor) (h : moveCursor key E = some E1) :
    E1.textRows = E.textRows := by
  unfold moveCursor at h
  obtain ⟨E2, h2, rfl⟩ := Option.map_eq_some'.mp h
  rw [(reconcileViewport_frame E2).2.2.1, cursorStep_rows key E E2 h2]

theorem noTerminator_insertRow (pos : Int) (s : Row) (E : Editor)
    (h : NoTerminator E.textRows) (hs : ∀ b ∈ s, b ≠ 10 ∧ b ≠ 13) :
    NoTerminator (insertRow pos s E).textRows := by
  unfold insertRow
  split_ifs
  · exact h
  · intro r hr
    simp only [List.mem_append, List.mem_cons] at hr
    rcases hr with hr | hr | hr
    · exact h r (List.mem_of_mem_take hr)
    · rw [hr]; exact hs
    · exact h r (List.mem_of_mem_drop hr)

theorem noTerminator_set (rows : List Row) (n : Nat) (r : Row) (h : NoTerminator rows)
    (hr : ∀ b ∈ r, b ≠ 10 ∧ b ≠ 13) : NoTerminator (rows.set n r) := by
  intro q hq
  rcases List.mem_or_eq_of_mem_set hq with hq | hq
  · exact h q hq
  · rw [hq]; exact hr

theorem noTerminator_insertChar (c : Int) (E E1 : Editor)
    (hc : c % 256 ≠ 10 ∧ c % 256 ≠ 13) (h : NoTerminator E.textRows)
    (hs : insertChar c E = some E1) : NoTerminator E1.textRows := by
  unfold insertChar at hs
  simp only at hs
  have hE : NoTerminator
      (if E.cursorY ≥ E.totalRows then insertRow E.totalRows [] E else E).textRows := by
    split_ifs
    · exact noTerminator_insertRow _ _ _ h (fun b hb => absurd hb (List.not_mem_nil b))
    · exact h
  generalize (if E.cursorY ≥ E.totalRows then insertRow E.totalRows [] E else E) = F at hs hE
  cases hrow : rowAt F F.cursorY with
  | none => simp [hrow] at hs
  | some row =>
    have hmem := hE row (rowAt_mem F _ row hrow)
    have hput : ∀ b ∈ putByte row F.cursorX.toNat (c % 256), b ≠ 10 ∧ b ≠ 13 := by
      intro b hb
      unfold putByte at hb
      split_ifs at hb
      · exact hmem b (List.mem_of_mem_take hb)
      · simp only [List.mem_append, List.mem_cons] at hb
        rcases hb with hb | hb | hb
        · exact hmem b (List.mem_of_mem_take hb)
        · rw [hb]; exact hc
        · exact hmem b (List.mem_of_mem_drop hb)
    have hset := noTerminator_set F.textRows F.cursorY.toNat _ hE hput
    simp only [hrow] at hs
    split_ifs at hs
    · cases hs
      exact hset
    · cases hs
      exact noTerminator_insertRow _ [] _ hset (fun b hb => absurd hb (List.not_mem_nil b))
    · cases hs
      exact hset

theorem noTerminator_insertNewLine (E E1 : Editor) (h : NoTerminator E.textRows)
    (hs : insertNewLine E = some E1) : NoTerminator E1.textRows := by
  unfold insertNewLine at hs
  simp only at hs
  split at hs
  · exact absurd hs (by simp)
  · rename_i E2 hsplit
    cases hs
    simp only
    split_ifs at hsplit
    · cases hsplit
      exact noTerminator_insertRow _ [] _ h (fun b hb => absurd hb (List.not_mem_nil b))
    · split at hsplit
      · exact absurd hsplit (by simp)
      · rename_i row hrow
        have hmem := h row (rowAt_mem E _ row hrow)
        split_ifs at hsplit
        cases hsplit
        exact noTerminator_set _ _ _
          (noTerminator_insertRow _ _ _ h (fun b hb => hmem b (List.mem_of_mem_drop hb)))
          (fun b hb => hmem b (List.mem_of_mem_take hb))

theorem noTerminator_deleteChar (E E1 : Editor) (h : NoTerminator E.textRows)
    (hs : deleteChar E = some E1) : NoTerminator E1.textRows := by
  unfold deleteChar at hs
  by_cases hg : E.cursorY ≥ E.totalRows ∨ (E.cursorX = 0 ∧ E.cursorY = 0)
  · rw [if_pos hg] at hs
    cases hs; exact h
  · rw [if_neg hg] at hs
    cases hrow : rowAt E E.cursorY with
    | none => simp [hrow] at hs
    | some row =>
      have hmem := h row (rowAt_mem E _ row hrow)
      simp only [hrow] at hs
      by_cases hx : E.cursorX > 0
      · rw [if_pos hx] at hs
        by_cases hb : E.cursorX > strlen row + 1
        · rw [if_pos hb] at hs
          exact absurd hs (by simp)
        · rw [if_neg hb] at hs
          cases hs
          refine noTerminator_set _ _ _ h ?_
          intro b hb
          rcases List.mem_append.mp hb with hb | hb
          · exact hmem b (List.mem_of_mem_take hb)
          · exact hmem b (List.mem_of_mem_drop hb)
      · rw [if_neg hx] at hs
        cases hprev : rowAt E (E.cursorY - 1) with
        | none => simp [hprev] at hs
        | some prev =>
          have hp := h prev (rowAt_mem E _ prev hprev)
          simp only [hprev] at hs
          cases hs
          intro r hr
          refine noTerminator_set _ _ (prev ++ row) h ?_ r (List.mem_of_mem_eraseIdx hr)
          intro b hb
          rcases List.mem_append.mp hb with hb | hb
          · exact hp b hb
          · exact hmem b hb

theorem noTerminator_processKeypress (k : Int) (E E1 : Editor)
    (hk : (-128 ≤ k ∧ k ≤ 255) ∨ k = ARROW_LEFT ∨ k = ARROW_RIGHT ∨ k = ARROW_UP ∨
      k = ARROW_DOWN)
    (h : NoTerminator E.textRows) (hs : processKeypress k E = .running E1) :
    NoTerminator E1.textRows := by
  have hof : ∀ o : Option Editor, Outcome.ofOption o = .running E1 → o = some E1 := by
    intro o ho
    cases o with
    | none => simp [Outcome.ofOption] at ho
    | some F => simp only [Outcome.ofOption, Outcome.running.injEq] at ho; rw [ho]
  unfold processKeypress at hs
  by_cases h1 : k = CTRL_KEY 113
  · rw [if_pos h1] at hs; exact absurd hs (by simp)
  rw [if_neg h1] at hs
  by_cases h2 : k = CTRL_KEY 115
  · rw [if_pos h2] at hs
    cases hs; exact h
  rw [if_neg h2] at hs
  by_cases h3 : k = 3
  · rw [if_pos h3] at hs; exact absurd hs (by simp)
  rw [if_neg h3] at hs
  by_cases h4 : k = BACKSPACE
  · rw [if_pos h4] at hs
    exact noTerminator_deleteChar E E1 h (hof _ hs)
  rw [if_neg h4] at hs
  by_cases h5 : k = ENTER
  · rw [if_pos h5] at hs
    exact noTerminator_insertNewLine E E1 h (hof _ hs)
  rw [if_neg h5] at hs
  by_cases h6 : k = ARROW_LEFT ∨ k = ARROW_RIGHT ∨ k = ARROW_UP ∨ k = ARROW_DOWN
  · rw [if_pos h6] at hs
    rw [moveCursor_rows k E E1 (hof _ hs)]
    exact h
  rw [if_neg h6] at hs
  by_cases h7 : ¬ iscntrl k = true
  · rw [if_pos h7] at hs
    have hr : -128 ≤ k ∧ k ≤ 255 := by
      rcases hk with hk | hk
      · exact hk
      · exact absurd hk h6
    have hn : ¬ ((0 ≤ k ∧ k < 32) ∨ k = 127) := by
      simpa [iscntrl] using h7
    exact noTerminator_insertChar k E E1 (by omega) h (hof _ hs)
  · rw [if_neg h7] at hs
    cases hs; exact h

theorem noTerminator_runKeys (keys : List Int) :
    ∀ (E E1 : Editor),
      (∀ k ∈ keys, (-128 ≤ k ∧ k ≤ 255) ∨ k = ARROW_LEFT ∨ k = ARROW_RIGHT ∨ k = ARROW_UP ∨
        k = ARROW_DOWN) →
      NoTerminator E.textRows → runKeys keys E = .running E1 → NoTerminator E1.textRows := by
  induction keys with
  | nil =>
    intro E E1 _ h hs
    simp only [runKeys, Outcome.running.injEq] at hs
    rw [← hs]; exact h
  | cons k ks ih =>
    intro E E1 hk h hs
    simp only [runKeys] at hs
    cases hp : processKeypress k E with
    | running E2 =>
      rw [hp] at hs
      exact ih E2 E1 (fun q hq => hk q (List.mem_cons_of_mem _ hq))
        (noTerminator_processKeypress k E E2 (hk k (List.mem_cons_self _ _)) h hp) hs
    | exited => rw [hp] at hs; exact absurd hs (by simp)
    | fault => rw [hp] at hs; exact absurd hs (by simp)

/-- C17 (no line terminator in any line): from the initial state, after any
sequence of `processKeypress` steps on key codes that `readKeyInput` can return
(a `char` value, -128..255 to cover both signednesses, which includes the bytes
0..255, or one of the four arrow codes), every state the loop reaches has rows
without the bytes 10 and 13: Enter goes to `insertNewLine`, and `insertChar` is
called for codes that are not control characters only. -/
theorem processKeypress_no_terminator (rows cols : Int) (keys : List Int) (E : Editor)
    (hk : ∀ k ∈ keys, (-128 ≤ k ∧ k ≤ 255) ∨ k = ARROW_LEFT ∨ k = ARROW_RIGHT ∨
      k = ARROW_UP ∨ k = ARROW_DOWN)
    (hs : runKeys keys (initializeEditor rows cols) = .running E) :
    NoTerminator E.textRows :=
  noTerminator_runKeys keys (initializeEditor rows cols) E hk
    (fun r hr => absurd hr (List.not_mem_nil r)) hs

theorem processKeypress_no_terminator_witness :
    NoTerminator (⟨1, 1, 0, 0, 24, 80, [[104], [105]]⟩ : Editor).textRows :=
  processKeypress_no_terminator 24 80 [104, 10, 13, 105] ⟨1, 1, 0, 0, 24, 80, [[104], [105]]⟩
    (by decide) (by decide)

/-! ## The cursor predicate of the reachable states -/

theorem cursorInv_of_row (E : Editor) (row : Row) (hrow : rowAt E E.cursorY = some row)
    (h0 : 0 ≤ E.cursorX) (h1 : E.cursorX ≤ strlen row) : CursorInv E := by
  have hy := (rowAt_isSome_iff E E.cursorY).mp ⟨row, hrow⟩
  refine ⟨hy.1, le_of_lt hy.2, fun _ => ⟨h0, ?_⟩, fun h => by omega⟩
  rw [rowLen_of_rowAt E _ row hrow]; exact h1

theorem cursorInv_of_end (E : Editor) (hy : E.cursorY = E.totalRows) (hx : E.cursorX = 0) :
    CursorInv E := by
  have : 0 ≤ E.totalRows := by unfold Editor.totalRows; omega
  exact ⟨by omega, by omega, fun h => by omega, fun _ => hx⟩

theorem cursorInv_cases (E : Editor) (h : CursorInv E) :
    (∃ row, rowAt E E.cursorY = some row ∧ 0 ≤ E.cursorX ∧ E.cursorX ≤ strlen row) ∨
    (E.cursorY = E.totalRows ∧ E.cursorX = 0) := by
  obtain ⟨h0, h1, h2, h3⟩ := h
  by_cases hy : E.cursorY < E.totalRows
  · obtain ⟨row, hrow⟩ := (rowAt_isSome_iff E E.cursorY).mpr ⟨h0, hy⟩
    have := h2 hy
    rw [rowLen_of_rowAt E _ row hrow] at this
    exact Or.inl ⟨row, hrow, this.1, this.2⟩
  · have : E.cursorY = E.totalRows := by omega
    exact Or.inr ⟨this, h3 this⟩

theorem cursorInv_reconcileViewport (E : Editor) (h : CursorInv E) :
    CursorInv (reconcileViewport E) := by
  obtain ⟨fx, fy, ft, _, _⟩ := reconcileViewport_frame E
  have hr : ∀ i, rowLen (reconcileViewport E) i = rowLen E i := by
    intro i; unfold rowLen; rw [rowAt_congr E _ ft]
  unfold CursorInv at h ⊢
  simp only [Editor.totalRows, fx, fy, ft, hr] at h ⊢
  exact h

theorem strlen_putByte (row : Row) (cx b : Int) (h0 : 0 ≤ cx) (h1 : cx ≤ strlen row)
    (hb : b ≠ 0) : strlen (putByte row cx.toNat b) = strlen row + 1 := by
  unfold strlen at *
  have : cx.toNat ≤ row.length := by omega
  simp only [putByte, hb, if_false, List.length_append, List.length_cons, List.length_take,
    List.length_drop, Nat.min_eq_left this]
  push_cast
  omega

theorem cursorInv_insertChar_app (c cx cy ro co tr tc : Int) (A B : List Row) (row : Row)
    (hy : (A.length : Int) = cy) (h0 : 0 ≤ cx) (h1 : cx ≤ strlen row) (hc : c % 256 ≠ 0) :
    ∃ E1, insertChar c ⟨cx, cy, ro, co, tr, tc, A ++ row :: B⟩ = some E1 ∧ CursorInv E1 := by
  rw [insertChar_app c cx cy ro co tr tc A B row hy h0 h1]
  by_cases hw : cx + 1 ≥ tc
  · rw [if_pos hw]
    refine ⟨_, rfl, ?_⟩
    cases B with
    | nil =>
      refine cursorInv_of_row _ [] ?_ (le_refl 0) (by simp [strlen])
      have := rowAt_app 0 (cy + 1) ro co tr tc (A ++ [putByte row cx.toNat (c % 256)]) [] []
        (by simp; omega)
      simpa using this
    | cons b B1 =>
      refine cursorInv_of_row _ b ?_ (le_refl 0)
        (by show (0 : Int) ≤ strlen b; unfold strlen; omega)
      have := rowAt_app 0 (cy + 1) ro co tr tc (A ++ [putByte row cx.toNat (c % 256)]) B1 b
        (by simp; omega)
      simpa using this
  · rw [if_neg hw]
    refine ⟨_, rfl, ?_⟩
    refine cursorInv_of_row _ (putByte row cx.toNat (c % 256)) (rowAt_app _ _ _ _ _ _ A B _ hy)
      (by simp only; omega) ?_
    rw [strlen_putByte row cx _ h0 h1 hc]
    simp only; omega

theorem cursorInv_insertChar (c : Int) (E : Editor) (hc : c % 256 ≠ 0) (h : CursorInv E) :
    ∃ E1, insertChar c E = some E1 ∧ CursorInv E1 := by
  rcases cursorInv_cases E h with ⟨row, hrow, h0, h1⟩ | ⟨hy, hx⟩
  · obtain ⟨A, B, hrows, hlen⟩ := rowAt_split E _ row hrow
    obtain ⟨cx, cy, ro, co, tr, tc, rows⟩ := E
    simp only at hrows hlen h0 h1
    subst hrows
    exact cursorInv_insertChar_app c cx cy ro co tr tc A B row hlen h0 h1 hc
  · obtain ⟨cx, cy, ro, co, tr, tc, rows⟩ := E
    simp only [Editor.totalRows] at hy hx
    subst hx
    rw [insertChar_append c 0 cy ro co tr tc rows hy.symm]
    exact cursorInv_insertChar_app c 0 cy ro co tr tc rows [] [] hy.symm (le_refl 0)
      (by simp [strlen]) hc

theorem cursorInv_insertNewLine (E : Editor) (h : CursorInv E) :
    ∃ E1, insertNewLine E = some E1 ∧ CursorInv E1 := by
  rcases cursorInv_cases E h with ⟨row, hrow, h0, h1⟩ | ⟨hy, hx⟩
  · obtain ⟨A, B, hrows, hlen⟩ := rowAt_split E _ row hrow
    obtain ⟨cx, cy, ro, co, tr, tc, rows⟩ := E
    simp only at hrows hlen h0 h1
    subst hrows
    refine ⟨_, insertNewLine_app cx cy ro co tr tc A B row hlen h0 h1, ?_⟩
    refine cursorInv_of_row _ (row.drop cx.toNat) ?_ (le_refl 0)
      (by show (0 : Int) ≤ strlen (row.drop cx.toNat); unfold strlen; omega)
    have := rowAt_app 0 (cy + 1) ro co tr tc (A ++ [row.take cx.toNat]) B
      (row.drop cx.toNat) (by simp; omega)
    simpa using this
  · obtain ⟨cx, cy, ro, co, tr, tc, rows⟩ := E
    simp only [Editor.totalRows] at hy hx
    subst hx
    have e := insertRow_app cy [] 0 cy ro co tr tc rows [] hy.symm
    simp only [List.append_nil] at e
    refine ⟨⟨0, cy + 1, ro, co, tr, tc, rows ++ [[]]⟩, ?_, ?_⟩
    · simp only [insertNewLine, if_true, e]
    · refine cursorInv_of_end _ ?_ rfl
      simp only [Editor.totalRows, List.length_append, List.length_singleton]
      push_cast; omega

theorem cursorInv_deleteChar (E : Editor) (h : CursorInv E) :
    ∃ E1, deleteChar E = some E1 ∧ CursorInv E1 := by
  by_cases hg : E.cursorY ≥ E.totalRows ∨ (E.cursorX = 0 ∧ E.cursorY = 0)
  · exact ⟨E, deleteChar_guard E hg, h⟩
  · rcases cursorInv_cases E h with ⟨row, hrow, h0, h1⟩ | ⟨hy, hx⟩
    · by_cases hx : E.cursorX > 0
      · obtain ⟨A, B, hrows, hlen⟩ := rowAt_split E _ row hrow
        obtain ⟨cx, cy, ro, co, tr, tc, rows⟩ := E
        simp only at hrows hlen h0 h1 hx
        subst hrows
        refine ⟨_, deleteChar_char_app cx cy ro co tr tc A B row hlen hx (by omega), ?_⟩
        refine cursorInv_of_row _ _ (rowAt_app _ _ _ _ _ _ A B _ hlen) (by simp only; omega) ?_
        unfold strlen at h1 ⊢
        have : (cx - 1).toNat ≤ row.length := by omega
        simp only [List.length_append, List.length_take, List.length_drop,
          Nat.min_eq_left this]
        push_cast
        omega
      · have hy0 : E.cursorY > 0 := by
          have := (rowAt_isSome_iff E E.cursorY).mp ⟨row, hrow⟩
          omega
        obtain ⟨prev, hprev⟩ :=
          (rowAt_isSome_iff E (E.cursorY - 1)).mpr
            ⟨by omega, by have := (rowAt_isSome_iff E E.cursorY).mp ⟨row, hrow⟩; omega⟩
        obtain ⟨A, B, hrows, hlen⟩ := rowAt_split_two E _ prev row hprev hrow
        obtain ⟨cx, cy, ro, co, tr, tc, rows⟩ := E
        simp only at hrows hlen h0 h1 hx
        subst hrows
        refine ⟨_, deleteChar_merge_app cx cy ro co tr tc A B prev row hlen (by omega), ?_⟩
        refine cursorInv_of_row _ (prev ++ row)
          (rowAt_app _ _ _ _ _ _ A B _ (by omega)) (by unfold strlen; simp only; omega) ?_
        unfold strlen
        simp only [List.length_append]
        push_cast; omega
    · exact absurd (Or.inl (by omega)) hg

theorem cursorInv_cursorStep (key : Int) (E E1 : Editor) (h : CursorInv E)
    (hs : cursorStep key E = some E1) : CursorInv E1 := by
  rcases cursorInv_cases E h with ⟨row, hrow, h0, h1⟩ | ⟨hy, hx⟩
  · obtain ⟨E2, row2, hs2, _, hr2, hx0, hx1⟩ := cursorStep_keeps_cursor key E row hrow h0 h1
    rw [hs] at hs2
    cases hs2
    exact cursorInv_of_row E1 row2 hr2 hx0 hx1
  · have hlen0 : ∀ r : Row, 0 ≤ strlen r := fun r => by unfold strlen; omega
    have htot : 0 ≤ E.totalRows := by unfold Editor.totalRows; omega
    unfold cursorStep at hs
    by_cases hL : key = ARROW_LEFT
    · rw [if_pos hL, if_neg (by omega)] at hs
      by_cases hy0 : E.cursorY > 0
      · obtain ⟨r, hr⟩ := (rowAt_isSome_iff E (E.cursorY - 1)).mpr ⟨by omega, by omega⟩
        rw [if_pos hy0] at hs
        simp only [hr] at hs
        cases hs
        exact cursorInv_of_row _ r ((rowAt_congr E _ rfl _).trans hr) (hlen0 r) (le_refl _)
      · rw [if_neg hy0] at hs
        cases hs; exact h
    · rw [if_neg hL] at hs
      by_cases hR : key = ARROW_RIGHT
      · rw [if_pos hR, rowAt_none E E.cursorY (Or.inr (by omega))] at hs
        exact absurd hs (by simp)
      · rw [if_neg hR] at hs
        by_cases hU : key = ARROW_UP
        · rw [if_pos hU] at hs
          by_cases hy0 : E.cursorY > 0
          · obtain ⟨r, hr⟩ := (rowAt_isSome_iff E (E.cursorY - 1)).mpr ⟨by omega, by omega⟩
            have hb : ¬ intGtSize E.cursorX (strlen r) = true := by
              have := hlen0 r
              simp only [intGtSize, decide_eq_true_eq]; omega
            rw [if_pos hy0] at hs
            simp only [hr, hb, if_false, Bool.false_eq_true] at hs
            cases hs
            exact cursorInv_of_row _ r ((rowAt_congr E _ rfl _).trans hr) (by simp only; omega)
              (by have := hlen0 r; simp only; omega)
          · rw [if_neg hy0] at hs
            cases hs; exact h
        · rw [if_neg hU] at hs
          by_cases hD : key = ARROW_DOWN
          · rw [if_pos hD, if_neg (by omega)] at hs
            cases hs; exact h
          · rw [if_neg hD] at hs
            cases hs; exact h

theorem cursorInv_moveCursor (key : Int) (E E1 : Editor) (h : CursorInv E)
    (hs : moveCursor key E = some E1) : CursorInv E1 := by
  unfold moveCursor at hs
  obtain ⟨E2, h2, rfl⟩ := Option.map_eq_some'.mp hs
  exact cursorInv_reconcileViewport E2 (cursorInv_cursorStep key E E2 h h2)

end Tide
